import Mathlib

/-!
# PODPLAYR media engine — verification of the core media pipeline

Shallow embedding of the media URL resolution pipeline
(`src/hooks/useNFTPreloader.ts`), the byte-range LRU video cache
(`src/utils/videoPreloader.ts`), the 25%-threshold play-session tracker and
the `trackNFTPlay` wrapper (`useAudioPlayer` module), and the `getMediaKey`
helpers (`src/utils/videoHandler.ts`, `src/hooks/useNFTPreloader.ts`).

JavaScript strings are modelled as Lean `String`/`List Char`; the handful of
JS string methods used by the source (`startsWith`, `includes`, single
`replace`, `split`/`join`, regex matching for the two literal regexes) are
embedded below with their exact JS semantics on the inputs the source feeds
them. `Map<string, ArrayBuffer>` is modelled as an insertion-ordered
association list with unique keys, which is exactly the observable behaviour
of a JS `Map` (including `set` on an existing key keeping its position, and
`delete`+`set` moving a key to the end). JS numbers used here are integers
well inside the float-exact range, modelled as `Int`/`Nat`; media times are
modelled as `ℚ` (the threshold comparison `currentTime >= duration * 0.25`
is exact in both models since 0.25 is a dyadic rational).
-/

namespace PodPlayr

/-! ## JS string-operation embeddings -/

/-- `[a-zA-Z0-9]` (ASCII, as in the source regexes). -/
def isAlnumC (c : Char) : Bool := c.isAlpha || c.isDigit

/-- Prefix test on char lists: `isPre pat l` iff `pat` is a prefix of `l`
(JS `String.prototype.startsWith`). -/
def isPre : List Char → List Char → Bool
  | [], _ => true
  | _ :: _, [] => false
  | p :: ps, c :: cs => p = c && isPre ps cs

/-- Substring test (JS `String.prototype.includes`). -/
def hasSub : List Char → List Char → Bool
  | [], pat => isPre pat []
  | c :: cs, pat => isPre pat (c :: cs) || hasSub cs pat

def jsStartsWith (s p : String) : Bool := isPre p.data s.data

def jsIncludes (s pat : String) : Bool := hasSub s.data pat.data

/-- Replace the first occurrence of `pat` by `repl`
(JS `String.prototype.replace` with a string pattern). -/
def replaceFirstL (pat repl : List Char) : List Char → List Char
  | [] => []
  | c :: cs =>
    if isPre pat (c :: cs) then repl ++ (c :: cs).drop pat.length
    else c :: replaceFirstL pat repl cs

def jsReplace (s pat repl : String) : String :=
  ⟨replaceFirstL pat.data repl.data s.data⟩

/-- JS `String.prototype.split` with a single-character separator. -/
def splitCharsOn (sep : Char) : List Char → List (List Char)
  | [] => [[]]
  | c :: cs =>
    if c = sep then [] :: splitCharsOn sep cs
    else
      match splitCharsOn sep cs with
      | [] => [[c]]
      | h :: t => (c :: h) :: t

/-- JS `Array.prototype.join` with a single-character separator. -/
def joinChars (sep : Char) : List (List Char) → List Char
  | [] => []
  | x :: t =>
    x ++ match t with
         | [] => []
         | _ :: _ => sep :: joinChars sep t

/-- Split at the first occurrence of `pat`, returning the parts before and
after it (used to embed `new URL` host/path splitting and anchored regex
parsing). -/
def splitOnceL (pat : List Char) : List Char → Option (List Char × List Char)
  | [] => if pat = [] then some ([], []) else none
  | c :: cs =>
    if isPre pat (c :: cs) then some ([], (c :: cs).drop pat.length)
    else (splitOnceL pat cs).map (fun p => (c :: p.1, p.2))

/-- JS `replace(/\/*$/, '')`: strip all trailing `'/'` characters. -/
def rstripSlashes (l : List Char) : List Char :=
  (l.reverse.dropWhile (fun c => c = '/')).reverse

def toLow (l : List Char) : List Char := l.map Char.toLower

/-- Case-insensitive literal match, returning the rest of the input
(for the `/i` regex flag). -/
def litCI : List Char → List Char → Option (List Char)
  | [], s => some s
  | _ :: _, [] => none
  | p :: ps, c :: cs => if p.toLower = c.toLower then litCI ps cs else none

/-! Basic lemmas about the string embeddings. -/

theorem isPre_iff (pat l : List Char) : isPre pat l = true ↔ pat <+: l := by
  induction pat generalizing l with
  | nil => simp [isPre, List.nil_prefix]
  | cons p ps ih =>
    cases l with
    | nil => simp [isPre]
    | cons c cs =>
      simp only [isPre, Bool.and_eq_true, decide_eq_true_eq, ih,
        List.cons_prefix_cons]

theorem infixOfPre {l1 l2 : List Char} (h : l1 <+: l2) : l1 <:+: l2 := by
  obtain ⟨t, ht⟩ := h
  exact ⟨[], t, by simpa using ht⟩

theorem infixOfSuf {l1 l2 : List Char} (h : l1 <:+ l2) : l1 <:+: l2 := by
  obtain ⟨t, ht⟩ := h
  exact ⟨t, [], by simpa using ht⟩

theorem hasSub_iff (l pat : List Char) : hasSub l pat = true ↔ pat <:+: l := by
  induction l with
  | nil =>
    cases pat with
    | nil => simp [hasSub, isPre]
    | cons p ps => simp [hasSub, isPre]
  | cons c cs ih =>
    simp only [hasSub, Bool.or_eq_true, isPre_iff, ih]
    constructor
    · rintro (h | h)
      · exact infixOfPre h
      · exact h.trans (List.infix_cons List.infix_rfl)
    · intro h
      rcases h with ⟨s, t, hst⟩
      cases s with
      | nil => left; exact ⟨t, by simpa using hst⟩
      | cons a as =>
        right
        refine ⟨as, t, ?_⟩
        simpa using congrArg List.tail hst

theorem hasSub_eq_false_iff (l pat : List Char) :
    hasSub l pat = false ↔ ¬ pat <:+: l := by
  rw [← hasSub_iff]
  cases hasSub l pat <;> simp

theorem splitCharsOn_ne_nil (sep : Char) (l : List Char) :
    splitCharsOn sep l ≠ [] := by
  cases l with
  | nil => simp [splitCharsOn]
  | cons c cs =>
    simp only [splitCharsOn]
    split
    · simp
    · cases splitCharsOn sep cs <;> simp

theorem joinChars_splitCharsOn (sep : Char) (l : List Char) :
    joinChars sep (splitCharsOn sep l) = l := by
  induction l with
  | nil => simp [splitCharsOn, joinChars]
  | cons c cs ih =>
    by_cases h : c = sep
    · subst h
      simp only [splitCharsOn, if_pos rfl]
      have hne := splitCharsOn_ne_nil c cs
      cases hs : splitCharsOn c cs with
      | nil => exact absurd hs hne
      | cons a t =>
        rw [hs] at ih
        simp only [joinChars] at ih ⊢
        simp [ih]
    · simp only [splitCharsOn, if_neg h]
      have hne := splitCharsOn_ne_nil sep cs
      cases hs : splitCharsOn sep cs with
      | nil => exact absurd hs hne
      | cons a t =>
        rw [hs] at ih
        simp only [joinChars] at ih ⊢
        cases t with
        | nil => simpa using congrArg (List.cons c) ih
        | cons b t2 => simpa using congrArg (List.cons c) ih

theorem splitCharsOn_no_sep (sep : Char) (l : List Char) (h : sep ∉ l) :
    splitCharsOn sep l = [l] := by
  induction l with
  | nil => simp [splitCharsOn]
  | cons c cs ih =>
    simp only [List.mem_cons, not_or] at h
    have hcs : ¬ c = sep := fun hc => h.1 hc.symm
    simp only [splitCharsOn, if_neg hcs]
    rw [ih h.2]

theorem splitCharsOn_append (sep : Char) (xs ys : List Char) (h : sep ∉ xs) :
    splitCharsOn sep (xs ++ sep :: ys) = xs :: splitCharsOn sep ys := by
  induction xs with
  | nil => simp [splitCharsOn]
  | cons c cs ih =>
    simp only [List.mem_cons, not_or] at h
    have hcs : ¬ c = sep := fun hc => h.1 hc.symm
    simp only [List.cons_append, splitCharsOn, if_neg hcs, List.append_eq]
    rw [ih h.2]

/-! ## Byte-range LRU cache (`VideoCache`, src/src/utils/videoPreloader.ts)

`ArrayBuffer`s are modelled as `List Nat` (byte sequences); `byteLength` is
the list length. `Map<string, ArrayBuffer>` is an insertion-ordered
association list with unique keys: `mapSet` on an existing key replaces the
value in place (a JS `Map` keeps the original insertion position), `mapSet`
on a fresh key appends at the end, and `mapDelete` removes the key.
`currentSize`/`maxSize` are JS numbers holding integers, modelled as `Int`.
-/

abbrev CacheMap := List (String × List Nat)

def mapSet (m : CacheMap) (k : String) (v : List Nat) : CacheMap :=
  if m.any (fun p => p.1 = k) then
    m.map (fun p => if p.1 = k then (k, v) else p)
  else m ++ [(k, v)]

def mapDelete (m : CacheMap) (k : String) : CacheMap :=
  m.filter (fun p => p.1 ≠ k)

def mapGet (m : CacheMap) (k : String) : Option (List Nat) :=
  (m.find? (fun p => p.1 = k)).map Prod.snd

/-- Sum of `byteLength` over the live entries. -/
def sumSize (m : CacheMap) : Int := (m.map (fun p => (p.2.length : Int))).sum

structure VideoCache where
  cache : CacheMap
  maxSize : Int
  currentSize : Int

/-- `constructor(maxSizeMB = 50)`: `maxSize = maxSizeMB * 1024 * 1024`. -/
def VideoCache.init (maxSizeMB : Nat) : VideoCache :=
  { cache := [], maxSize := (maxSizeMB : Int) * 1024 * 1024, currentSize := 0 }

/-- The cache key `` `${url}:${start}-${end}` ``. -/
def chunkKey (url : String) (start endB : Nat) : String :=
  url ++ ":" ++ toString start ++ "-" ++ toString endB

/-- `getChunk`: on hit, delete + re-set the key (moving it to the most
recently used end of the map) and return the chunk; on miss return `null`. -/
def VideoCache.getChunk (c : VideoCache) (url : String) (start endB : Nat) :
    Option (List Nat) × VideoCache :=
  let key := chunkKey url start endB
  match mapGet c.cache key with
  | some chunk =>
    (some chunk, { c with cache := mapSet (mapDelete c.cache key) key chunk })
  | none => (none, c)

/-- The eviction loop of `setChunk`: walk the snapshot of entries taken at
loop start, deleting each from the cache and decrementing `currentSize`,
while the new chunk still does not fit and entries remain. -/
def evictLoop (chunkSize maxSize : Int) :
    List (String × List Nat) → CacheMap → Int → CacheMap × Int
  | [], cache, cs => (cache, cs)
  | (k, ch) :: rest, cache, cs =>
    if maxSize < cs + chunkSize then
      evictLoop chunkSize maxSize rest (mapDelete cache k) (cs - (ch.length : Int))
    else (cache, cs)

/-- `setChunk`: evict oldest-first until the new chunk fits (or the cache is
empty), then insert unconditionally and add the chunk size to the counter. -/
def VideoCache.setChunk (c : VideoCache) (url : String) (start endB : Nat)
    (chunk : List Nat) : VideoCache :=
  let key := chunkKey url start endB
  let chunkSize : Int := chunk.length
  let evicted :=
    if c.maxSize < c.currentSize + chunkSize then
      evictLoop chunkSize c.maxSize c.cache c.cache c.currentSize
    else (c.cache, c.currentSize)
  { c with
    cache := mapSet evicted.1 key chunk
    currentSize := evicted.2 + chunkSize }

/-- `clear()`. -/
def VideoCache.clear (c : VideoCache) : VideoCache :=
  { c with cache := [], currentSize := 0 }

/-- One `setChunk` call: `(url, start, end, chunk)`. -/
structure SetOp where
  url : String
  start : Nat
  endB : Nat
  chunk : List Nat

def runSets (c : VideoCache) (ops : List SetOp) : VideoCache :=
  ops.foldl (fun c op => c.setChunk op.url op.start op.endB op.chunk) c

/-! Invariants of the cache representation. -/

def NodupKeys (m : CacheMap) : Prop := (m.map Prod.fst).Nodup

def CacheInv (c : VideoCache) : Prop :=
  sumSize c.cache ≤ c.currentSize ∧ NodupKeys c.cache

theorem sumSize_nonneg (m : CacheMap) : 0 ≤ sumSize m := by
  induction m with
  | nil => simp [sumSize]
  | cons p t ih =>
    simp only [sumSize, List.map_cons, List.sum_cons] at *
    positivity

theorem keys_map_replace (t : CacheMap) (k : String) (v : List Nat) :
    (t.map (fun p => if p.1 = k then (k, v) else p)).map Prod.fst =
      t.map Prod.fst := by
  induction t with
  | nil => simp
  | cons p t ih =>
    simp only [List.map_cons, ih, List.cons.injEq, and_true]
    split
    · rename_i hp; simp [← hp]
    · rfl

theorem map_replace_id (t : CacheMap) (k : String) (v : List Nat)
    (h : k ∉ t.map Prod.fst) :
    t.map (fun p => if p.1 = k then (k, v) else p) = t := by
  induction t with
  | nil => simp
  | cons p t ih =>
    simp only [List.map_cons, List.mem_cons, not_or] at h
    have hp : ¬ p.1 = k := fun hp => h.1 hp.symm
    simp only [List.map_cons, if_neg hp, ih h.2]

theorem sum_map_replace_le (t : CacheMap) (k : String) (v : List Nat)
    (h : NodupKeys t) :
    sumSize (t.map (fun p => if p.1 = k then (k, v) else p)) ≤
      sumSize t + (v.length : Int) := by
  induction t with
  | nil => simp only [List.map_nil, sumSize, List.sum_nil, zero_add]; positivity
  | cons p t ih =>
    rw [NodupKeys, List.map_cons, List.nodup_cons] at h
    by_cases hp : p.1 = k
    · rw [List.map_cons, if_pos hp, map_replace_id t k v (hp ▸ h.1)]
      have h0 : (0 : Int) ≤ (p.2.length : Int) := by positivity
      simp only [sumSize, List.map_cons, List.sum_cons]
      omega
    · rw [List.map_cons, if_neg hp]
      have := ih h.2
      simp only [sumSize, List.map_cons, List.sum_cons] at *
      omega

theorem sumSize_mapSet_le (m : CacheMap) (k : String) (v : List Nat)
    (h : NodupKeys m) :
    sumSize (mapSet m k v) ≤ sumSize m + (v.length : Int) := by
  unfold mapSet
  split
  · exact sum_map_replace_le m k v h
  · simp only [sumSize, List.map_append, List.sum_append, List.map_cons,
      List.map_nil, List.sum_cons, List.sum_nil]
    omega

theorem mapDelete_cons_self (k : String) (ch : List Nat)
    (rest : CacheMap) (h : k ∉ rest.map Prod.fst) :
    mapDelete ((k, ch) :: rest) k = rest := by
  unfold mapDelete
  rw [List.filter_cons]
  simp only [ne_eq, not_true_eq_false, decide_False, Bool.false_eq_true,
    if_false]
  rw [List.filter_eq_self]
  intro p hp
  simp only [ne_eq, decide_eq_true_eq]
  intro hpk
  exact h (hpk ▸ List.mem_map_of_mem Prod.fst hp)

theorem evictLoop_spec (sz max : Int) :
    ∀ (entries : List (String × List Nat)) (cs : Int),
    NodupKeys entries → sumSize entries ≤ cs →
    sumSize (evictLoop sz max entries entries cs).1 ≤
        (evictLoop sz max entries entries cs).2 ∧
    NodupKeys (evictLoop sz max entries entries cs).1 ∧
    ((evictLoop sz max entries entries cs).2 + sz ≤ max ∨
        (evictLoop sz max entries entries cs).1 = []) := by
  intro entries
  induction entries with
  | nil =>
    intro cs hnd hsum
    refine ⟨by simpa [evictLoop] using hsum, by simpa [evictLoop] using hnd, ?_⟩
    right
    simp [evictLoop]
  | cons p rest ih =>
    intro cs hnd hsum
    obtain ⟨k, ch⟩ := p
    rw [NodupKeys, List.map_cons, List.nodup_cons] at hnd
    by_cases hc : max < cs + sz
    · rw [show evictLoop sz max ((k, ch) :: rest) ((k, ch) :: rest) cs =
          evictLoop sz max rest (mapDelete ((k, ch) :: rest) k)
            (cs - (ch.length : Int)) by simp [evictLoop, hc]]
      rw [mapDelete_cons_self k ch rest hnd.1]
      apply ih
      · exact hnd.2
      · simp only [sumSize, List.map_cons, List.sum_cons] at hsum ⊢
        omega
    · rw [show evictLoop sz max ((k, ch) :: rest) ((k, ch) :: rest) cs =
          ((k, ch) :: rest, cs) by simp [evictLoop, hc]]
      refine ⟨hsum, ?_, Or.inl (by omega)⟩
      rw [NodupKeys, List.map_cons, List.nodup_cons]
      exact hnd

theorem nodup_mapSet (m : CacheMap) (k : String) (v : List Nat)
    (h : NodupKeys m) : NodupKeys (mapSet m k v) := by
  unfold NodupKeys at *
  unfold mapSet
  split
  · rw [keys_map_replace]; exact h
  · rename_i hany
    rw [List.map_append]
    simp only [List.map_cons, List.map_nil]
    rw [List.nodup_append]
    refine ⟨h, List.nodup_singleton k, ?_⟩
    intro a ha
    simp only [List.mem_singleton]
    intro hak
    subst hak
    rw [List.mem_map] at ha
    obtain ⟨p, hp, hpk⟩ := ha
    rw [Bool.not_eq_true, List.any_eq_false] at hany
    have := hany p hp
    simp [hpk] at this

theorem setChunk_inv (c : VideoCache) (url : String) (start endB : Nat)
    (chunk : List Nat) (h : CacheInv c) :
    CacheInv (c.setChunk url start endB chunk) := by
  obtain ⟨hsum, hnd⟩ := h
  unfold VideoCache.setChunk CacheInv
  by_cases hc : c.maxSize < c.currentSize + (chunk.length : Int)
  · simp only [if_pos hc]
    have hspec := evictLoop_spec (chunk.length : Int) c.maxSize c.cache
      c.currentSize hnd hsum
    constructor
    · calc sumSize (mapSet _ _ chunk) ≤ _ + (chunk.length : Int) :=
            sumSize_mapSet_le _ _ _ hspec.2.1
        _ ≤ _ := by have := hspec.1; omega
    · exact nodup_mapSet _ _ _ hspec.2.1
  · simp only [if_neg hc]
    constructor
    · calc sumSize (mapSet c.cache _ chunk) ≤
            sumSize c.cache + (chunk.length : Int) :=
            sumSize_mapSet_le _ _ _ hnd
        _ ≤ _ := by omega
    · exact nodup_mapSet _ _ _ hnd

theorem setChunk_budget (c : VideoCache) (url : String) (start endB : Nat)
    (chunk : List Nat) (h : CacheInv c) :
    sumSize (c.setChunk url start endB chunk).cache ≤ c.maxSize ∨
      c.maxSize < (chunk.length : Int) := by
  obtain ⟨hsum, hnd⟩ := h
  by_cases hbig : c.maxSize < (chunk.length : Int)
  · exact Or.inr hbig
  left
  unfold VideoCache.setChunk
  by_cases hc : c.maxSize < c.currentSize + (chunk.length : Int)
  · simp only [if_pos hc]
    have hspec := evictLoop_spec (chunk.length : Int) c.maxSize c.cache
      c.currentSize hnd hsum
    rcases hspec.2.2 with hfits | hempty
    · calc sumSize (mapSet _ _ chunk) ≤ _ + (chunk.length : Int) :=
            sumSize_mapSet_le _ _ _ hspec.2.1
        _ ≤ c.maxSize := by have := hspec.1; omega
    · rw [hempty]
      simpa [mapSet, sumSize] using not_lt.mp hbig
  · simp only [if_neg hc]
    calc sumSize (mapSet c.cache _ chunk) ≤
          sumSize c.cache + (chunk.length : Int) :=
          sumSize_mapSet_le _ _ _ hnd
      _ ≤ c.maxSize := by omega

theorem setChunk_maxSize (c : VideoCache) (url : String) (start endB : Nat)
    (chunk : List Nat) :
    (c.setChunk url start endB chunk).maxSize = c.maxSize := rfl

theorem runSets_inv (ops : List SetOp) :
    ∀ c : VideoCache, CacheInv c → CacheInv (runSets c ops) := by
  induction ops with
  | nil => intro c h; exact h
  | cons op t ih =>
    intro c h
    exact ih _ (setChunk_inv c op.url op.start op.endB op.chunk h)

theorem runSets_maxSize (ops : List SetOp) :
    ∀ c : VideoCache, (runSets c ops).maxSize = c.maxSize := by
  induction ops with
  | nil => intro c; rfl
  | cons op t ih => intro c; exact ih _

theorem init_inv (maxSizeMB : Nat) : CacheInv (VideoCache.init maxSizeMB) := by
  constructor
  · simp [VideoCache.init, sumSize]
  · simp [VideoCache.init, NodupKeys]

/-- C2. For every sequence of `setChunk` calls on a freshly constructed
`VideoCache`, after each call the sum of `byteLength` over all live entries
is at most `maxSize`, or else the chunk inserted by that call alone exceeds
`maxSize`: the cache budget invariant of `VideoCache.setChunk`
(src/src/utils/videoPreloader.ts, lines 29–50). -/
theorem cache_budget_invariant (maxSizeMB : Nat) (ops : List SetOp)
    (op : SetOp) :
    sumSize (((runSets (VideoCache.init maxSizeMB) ops).setChunk
        op.url op.start op.endB op.chunk).cache) ≤
      (VideoCache.init maxSizeMB).maxSize ∨
    (VideoCache.init maxSizeMB).maxSize < (op.chunk.length : Int) := by
  have hinv := runSets_inv ops _ (init_inv maxSizeMB)
  have hmax := runSets_maxSize ops (VideoCache.init maxSizeMB)
  have := setChunk_budget (runSets (VideoCache.init maxSizeMB) ops)
    op.url op.start op.endB op.chunk hinv
  rwa [hmax] at this

/-- C3. LRU eviction order with `getChunk` promotion: after inserting
A, B, C (filling the cache), a hit on the key of A via `getChunk` promotes A to
most-recently-used, so a subsequent insert of D that requires exactly one
eviction evicts B, and A remains cached
(src/src/utils/videoPreloader.ts, `getChunk`/`setChunk`). -/
theorem lru_eviction_order
    (M : Int) (uA uB uC uD : String) (sA eA sB eB sC eC sD eD : Nat)
    (chA chB chC chD : List Nat)
    (hAB : chunkKey uA sA eA ≠ chunkKey uB sB eB)
    (hAC : chunkKey uA sA eA ≠ chunkKey uC sC eC)
    (hAD : chunkKey uA sA eA ≠ chunkKey uD sD eD)
    (hBC : chunkKey uB sB eB ≠ chunkKey uC sC eC)
    (hBD : chunkKey uB sB eB ≠ chunkKey uD sD eD)
    (hCD : chunkKey uC sC eC ≠ chunkKey uD sD eD)
    (hfill : (chA.length : Int) + chB.length + chC.length ≤ M)
    (hneed : M < (chA.length : Int) + chB.length + chC.length + chD.length)
    (hone : (chA.length : Int) + chC.length + chD.length ≤ M) :
    ((((VideoCache.mk [] M 0).setChunk uA sA eA chA).setChunk uB sB eB
        chB).setChunk uC sC eC chC).getChunk uA sA eA
      = (some chA,
         VideoCache.mk
           [(chunkKey uB sB eB, chB), (chunkKey uC sC eC, chC),
            (chunkKey uA sA eA, chA)] M
           ((chA.length : Int) + chB.length + chC.length)) ∧
    mapGet ((((((VideoCache.mk [] M 0).setChunk uA sA eA chA).setChunk uB sB
        eB chB).setChunk uC sC eC chC).getChunk uA sA eA).2.setChunk uD sD eD
        chD).cache (chunkKey uB sB eB) = none ∧
    mapGet ((((((VideoCache.mk [] M 0).setChunk uA sA eA chA).setChunk uB sB
        eB chB).setChunk uC sC eC chC).getChunk uA sA eA).2.setChunk uD sD eD
        chD).cache (chunkKey uA sA eA) = some chA := by
  set kA := chunkKey uA sA eA with hkA
  set kB := chunkKey uB sB eB with hkB
  set kC := chunkKey uC sC eC with hkC
  set kD := chunkKey uD sD eD with hkD
  have hBA := Ne.symm hAB
  have hCA := Ne.symm hAC
  have hDA := Ne.symm hAD
  have hCB := Ne.symm hBC
  have hDB := Ne.symm hBD
  have hDC := Ne.symm hCD
  have e1 : (VideoCache.mk [] M 0).setChunk uA sA eA chA =
      VideoCache.mk [(kA, chA)] M (chA.length : Int) := by
    have hc : ¬ (M < (chA.length : Int)) := by omega
    simp [VideoCache.setChunk, hc, mapSet, ← hkA]
  have e2 : (VideoCache.mk [(kA, chA)] M (chA.length : Int)).setChunk
      uB sB eB chB =
      VideoCache.mk [(kA, chA), (kB, chB)] M
        ((chA.length : Int) + chB.length) := by
    have hc : ¬ (M < (chA.length : Int) + (chB.length : Int)) := by omega
    simp [VideoCache.setChunk, hc, mapSet, ← hkB, hAB, hBA]
  have e3 : (VideoCache.mk [(kA, chA), (kB, chB)] M
      ((chA.length : Int) + chB.length)).setChunk uC sC eC chC =
      VideoCache.mk [(kA, chA), (kB, chB), (kC, chC)] M
        ((chA.length : Int) + chB.length + chC.length) := by
    have hc : ¬ (M < (chA.length : Int) + (chB.length : Int) +
        (chC.length : Int)) := by omega
    simp [VideoCache.setChunk, hc, mapSet, ← hkC, hAC, hCA, hBC, hCB]
  have e4 : (VideoCache.mk [(kA, chA), (kB, chB), (kC, chC)] M
      ((chA.length : Int) + chB.length + chC.length)).getChunk uA sA eA =
      (some chA,
       VideoCache.mk [(kB, chB), (kC, chC), (kA, chA)] M
         ((chA.length : Int) + chB.length + chC.length)) := by
    simp [VideoCache.getChunk, mapGet, mapDelete, mapSet, ← hkA,
      hAB, hBA, hAC, hCA]
  have e5 : (VideoCache.mk [(kB, chB), (kC, chC), (kA, chA)] M
      ((chA.length : Int) + chB.length + chC.length)).setChunk uD sD eD
      chD =
      VideoCache.mk [(kC, chC), (kA, chA), (kD, chD)] M
        ((chA.length : Int) + chB.length + chC.length - chB.length +
          chD.length) := by
    have hc : (M < (chA.length : Int) + chB.length + chC.length +
        (chD.length : Int)) := by omega
    have hc2 : ¬ (M < (chA.length : Int) + chB.length + chC.length -
        (chB.length : Int) + (chD.length : Int)) := by omega
    simp [VideoCache.setChunk, hc, evictLoop, mapDelete, mapSet, ← hkD,
      hBC, hCB, hAB, hBA, hc2, hCD, hDC, hAD, hDA]
  rw [e1, e2, e3, e4]
  refine ⟨rfl, ?_⟩
  rw [e5]
  constructor
  · simp [mapGet, Ne.symm hBC, hAB, Ne.symm hBD]
  · simp [mapGet, Ne.symm hAC, hAD]

/-- Witness for `lru_eviction_order`: maxSize 100, chunks of 40, 30, 20
bytes fill the cache, a hit on A, then a 20-byte D evicts exactly B while A
stays cached. -/
theorem lru_eviction_order_witness :
    (chunkKey "a" 0 0 ≠ chunkKey "b" 0 0 ∧
     ((List.replicate 40 0).length : Int) + (List.replicate 30 0).length +
        (List.replicate 20 0).length ≤ 100 ∧
     (100 : Int) < ((List.replicate 40 0).length : Int) +
        (List.replicate 30 0).length + (List.replicate 20 0).length +
        (List.replicate 20 0).length ∧
     ((List.replicate 40 0).length : Int) + (List.replicate 20 0).length +
        (List.replicate 20 0).length ≤ 100) ∧
    mapGet ((((((VideoCache.mk [] 100 0).setChunk "a" 0 0
        (List.replicate 40 0)).setChunk "b" 0 0
        (List.replicate 30 0)).setChunk "c" 0 0
        (List.replicate 20 0)).getChunk "a" 0 0).2.setChunk "d" 0 0
        (List.replicate 20 0)).cache (chunkKey "b" 0 0) = none ∧
    mapGet ((((((VideoCache.mk [] 100 0).setChunk "a" 0 0
        (List.replicate 40 0)).setChunk "b" 0 0
        (List.replicate 30 0)).setChunk "c" 0 0
        (List.replicate 20 0)).getChunk "a" 0 0).2.setChunk "d" 0 0
        (List.replicate 20 0)).cache (chunkKey "a" 0 0) =
      some (List.replicate 40 0) := by
  refine ⟨by decide, ?_, ?_⟩
  · exact (lru_eviction_order 100 "a" "b" "c" "d" 0 0 0 0 0 0 0 0
      (List.replicate 40 0) (List.replicate 30 0) (List.replicate 20 0)
      (List.replicate 20 0) (by decide) (by decide) (by decide) (by decide)
      (by decide) (by decide) (by decide) (by decide) (by decide)).2.1
  · exact (lru_eviction_order 100 "a" "b" "c" "d" 0 0 0 0 0 0 0 0
      (List.replicate 40 0) (List.replicate 30 0) (List.replicate 20 0)
      (List.replicate 20 0) (by decide) (by decide) (by decide) (by decide)
      (by decide) (by decide) (by decide) (by decide) (by decide)).2.2

/-! ## Play-session 25%-threshold tracker

Embedding of the per-session `timeupdate` closures of the audio player
(`timeUpdateHandler` for video-with-audio and the anonymous audio
`timeupdate` listener; both run
`if (!playTracked && el.duration > 0 && el.currentTime >= el.duration * 0.25)
 { playTracked = true; trackNFTPlay(nft, fid, { thresholdReached: true }); }`).
The closure variable `playTracked` is the session state; each `timeupdate`
event carries the `(currentTime, duration)` of the element, modelled as rationals
(`0.25` is exact in binary floating point, so the comparison agrees with the
rational model on all representable inputs). -/

structure TimeEvent where
  currentTime : ℚ
  duration : ℚ

/-- The source condition
`!playTracked && duration > 0 && currentTime >= duration * 0.25`. -/
def thresholdHit (playTracked : Bool) (e : TimeEvent) : Bool :=
  !playTracked && decide (0 < e.duration) &&
    decide (e.duration * (1/4) ≤ e.currentTime)

/-- Run a session over a `timeupdate` event stream: for each event, report
whether the record-play callback with `thresholdReached = true` fired there,
threading the `playTracked` closure variable. -/
def sessionFires (playTracked : Bool) : List TimeEvent → List Bool
  | [] => []
  | e :: es =>
    if thresholdHit playTracked e then true :: sessionFires true es
    else false :: sessionFires playTracked es

/-- The 25%-ratio condition of the claim:
`duration > 0 ∧ currentTime / duration ≥ 0.25`. -/
def ratioCond (e : TimeEvent) : Bool :=
  decide (0 < e.duration) && decide ((1 : ℚ)/4 ≤ e.currentTime / e.duration)

/-- Index of the first event satisfying the ratio condition, if any. -/
def firstHit : List TimeEvent → Option Nat
  | [] => none
  | e :: es => if ratioCond e then some 0 else (firstHit es).map (· + 1)

/-- Expected firing pattern: fire exactly at the first event satisfying the
ratio condition and nowhere else. -/
def firstHitPattern (evs : List TimeEvent) : List Bool :=
  match firstHit evs with
  | some i => List.replicate i false ++ true ::
      List.replicate (evs.length - i - 1) false
  | none => List.replicate evs.length false

theorem firstHit_cons (e : TimeEvent) (es : List TimeEvent) :
    firstHit (e :: es) =
      if ratioCond e then some 0 else (firstHit es).map (· + 1) := rfl

theorem firstHit_none_any (evs : List TimeEvent) :
    firstHit evs = none ↔ evs.any (fun e => ratioCond e) = false := by
  induction evs with
  | nil => simp [firstHit]
  | cons e es ih =>
    by_cases hc : ratioCond e = true
    · simp [firstHit, hc]
    · simp [firstHit, hc, Option.map_eq_none', ih]

theorem thresholdHit_false_eq (e : TimeEvent) :
    thresholdHit false e = ratioCond e := by
  unfold thresholdHit ratioCond
  by_cases hd : 0 < e.duration
  · have hiff : ((1 : ℚ)/4 ≤ e.currentTime / e.duration) ↔
        (e.duration * (1/4) ≤ e.currentTime) := by
      rw [le_div_iff₀ hd, mul_comm]
    rw [decide_eq_decide.mpr hiff]
    rfl
  · simp [hd]

theorem sessionFires_tracked (evs : List TimeEvent) :
    sessionFires true evs = List.replicate evs.length false := by
  induction evs with
  | nil => rfl
  | cons e es ih =>
    rw [sessionFires, if_neg (by simp [thresholdHit])]
    simp [ih, List.replicate_succ]

/-- C1. Within one playback session, the record-play callback with
`thresholdReached = true` fires exactly on the first `timeupdate` event with
`duration > 0` and `currentTime / duration ≥ 0.25` and never again: the
emitted pattern over any event sequence is `firstHitPattern`
(src/unnamed/part_001, `timeUpdateHandler` at lines 521–540 and the audio
`timeupdate` listener at lines 859–879). In particular the callback fires
at most once per session, and exactly once whenever the ratio crosses 25%. -/
theorem threshold_fires_once (evs : List TimeEvent) :
    sessionFires false evs = firstHitPattern evs ∧
    (sessionFires false evs).count true =
      (if evs.any (fun e => ratioCond e) then 1 else 0) := by
  have main : sessionFires false evs = firstHitPattern evs := by
    induction evs with
    | nil => rfl
    | cons e es ih =>
      rw [sessionFires, thresholdHit_false_eq]
      by_cases hc : ratioCond e = true
      · rw [if_pos hc]
        unfold firstHitPattern
        rw [firstHit_cons, if_pos hc]
        simp [sessionFires_tracked]
      · rw [if_neg hc, ih]
        unfold firstHitPattern
        rw [firstHit_cons, if_neg hc]
        cases hfi : firstHit es with
        | none => simp [List.replicate_succ]
        | some i =>
          simp only [Option.map_some', List.length_cons]
          have harith : es.length + 1 - (i + 1) - 1 = es.length - i - 1 := by
            omega
          rw [harith, List.replicate_succ]
          simp
  refine ⟨main, ?_⟩
  rw [main]
  unfold firstHitPattern
  cases hfi : firstHit evs with
  | none =>
    have hall : evs.any (fun e => ratioCond e) = false :=
      (firstHit_none_any evs).mp hfi
    simp [hall, List.count_replicate]
  | some i =>
    have hs : evs.any (fun e => ratioCond e) = true := by
      by_contra hfalse
      rw [Bool.not_eq_true] at hfalse
      rw [(firstHit_none_any evs).mpr hfalse] at hfi
      cases hfi
    simp [hs, List.count_append, List.count_replicate, List.count_cons]

/-! ## `getMediaKey` (src/src/utils/videoHandler.ts lines 4–7,
src/src/hooks/useNFTPreloader.ts lines 708–710)

Both cited implementations are
`const getMediaKey = (nft: NFT): string => { return uuidv4(); }`.
`uuidv4()` draws a fresh random identifier on every call; its defining
property (per RFC 4122 and the `uuid` package) is that distinct draws are
distinct. The generator is modelled as explicit state passing: a counter
`g : Nat` stands for the generator state and `uuidv4` returns a fresh
identifier and the advanced state, distinct draws yielding distinct
strings. -/

structure NFT where
  contract : String
  tokenId : String
  name : String
  mediaKey : String -- "" models an absent/undefined `mediaKey` field
  audio : String
  image : String
  animationUrl : String
deriving DecidableEq

/-- Fresh-identifier generator modelling `v4()` from the `uuid` package. -/
def uuidv4 (g : Nat) : String × Nat := ("uuid-" ++ toString g, g + 1)

/-- `getMediaKey(nft) { return uuidv4(); }` — the random-key variant cited
by the claim, threaded through the generator state. -/
def getMediaKey (nft : NFT) (g : Nat) : String × Nat := uuidv4 g

/-- C4 (code bug). `getMediaKey` is not deterministic and not
content-derived: two successive calls on the very same NFT record return
different keys, and two records pointing at the same media receive
different keys as well — the code returns a fresh `uuidv4()` per call
(src/src/utils/videoHandler.ts lines 4–7, src/src/hooks/useNFTPreloader.ts
lines 708–710), contradicting the content-derived contract the rest of the
code base relies on. -/
theorem getMediaKey_not_deterministic :
    (getMediaKey (NFT.mk "0xabc" "1" "Song" "" "ar://tx/a.mp3" "img" "") 0).1 ≠
      (getMediaKey (NFT.mk "0xabc" "1" "Song" "" "ar://tx/a.mp3" "img" "")
        ((getMediaKey (NFT.mk "0xabc" "1" "Song" "" "ar://tx/a.mp3" "img" "")
          0).2)).1 ∧
    (getMediaKey (NFT.mk "0xabc" "1" "Song" "" "ar://tx/a.mp3" "img" "") 0).1 ≠
      (getMediaKey (NFT.mk "0xdef" "2" "Song" "" "ar://tx/a.mp3" "img" "")
        ((getMediaKey (NFT.mk "0xabc" "1" "Song" "" "ar://tx/a.mp3" "img" "")
          0).2)).1 := by
  constructor <;> decide

/-! ## `trackNFTPlay` wrapper (src/unnamed/part_001 lines 55–86)

The wrapper around the Firebase `trackNFTPlay`. The module-level
`immediatelyTrackedNFTs : Set<string>` is the only state it touches,
modelled as a `Finset String`. The helper `getMediaKey` it calls here comes
from `utils/media` (not under src/); since the behaviour of the wrapper holds
for every such helper, it is taken as a parameter `gmk`. The result
distinguishes `Promise.resolve()` (no Firebase call) from a call to the
underlying `originalTrackNFTPlay`. -/

structure TrackOptions where
  forceTrack : Bool
  thresholdReached : Bool
deriving DecidableEq

inductive TrackResult where
  | resolvedNoop
  | firebase (nft : NFT) (fid : Nat)
deriving DecidableEq

def trackNFTPlay (gmk : NFT → String) (nft : NFT) (fid : Nat)
    (options : Option TrackOptions) (tracked : Finset String) :
    TrackResult × Finset String :=
  let mediaKey := if nft.mediaKey ≠ "" then nft.mediaKey else gmk nft
  let legacyNftKey := nft.contract ++ "-" ++ nft.tokenId
  let force := (options.map (fun o => o.forceTrack)).getD false
  let thresh := (options.map (fun o => o.thresholdReached)).getD false
  if !force && !thresh then
    let t1 := if mediaKey ≠ "" then insert mediaKey tracked else tracked
    (.resolvedNoop, insert legacyNftKey t1)
  else if thresh || force then
    (.firebase nft fid, tracked)
  else
    (.resolvedNoop, tracked)

/-- C10. A `trackNFTPlay` call with options absent or with both
`forceTrack` and `thresholdReached` falsy never invokes the underlying
Firebase play-recording function and returns a resolved promise; the only
state changed is `immediatelyTrackedNFTs`, which grows by exactly the media
key of the NFT (when non-empty) and its `contract-tokenId` key; moreover no call
of the wrapper ever shrinks the set or reads it (the result is independent
of it). -/
theorem trackNFTPlay_frame (gmk : NFT → String) (nft : NFT) (fid : Nat)
    (options : Option TrackOptions) (tracked : Finset String)
    (h : options = none ∨
      ∃ o, options = some o ∧ o.forceTrack = false ∧
        o.thresholdReached = false) :
    (trackNFTPlay gmk nft fid options tracked).1 = .resolvedNoop ∧
    (trackNFTPlay gmk nft fid options tracked).2 =
      insert (nft.contract ++ "-" ++ nft.tokenId)
        (if (if nft.mediaKey ≠ "" then nft.mediaKey else gmk nft) ≠ "" then
          insert (if nft.mediaKey ≠ "" then nft.mediaKey else gmk nft) tracked
        else tracked) ∧
    (∀ opts2 (st : Finset String),
      st ⊆ (trackNFTPlay gmk nft fid opts2 st).2) ∧
    (∀ opts2 (st st2 : Finset String),
      (trackNFTPlay gmk nft fid opts2 st).1 =
        (trackNFTPlay gmk nft fid opts2 st2).1) := by
  have hfalsy :
      ((options.map (fun o => o.forceTrack)).getD false = false) ∧
      ((options.map (fun o => o.thresholdReached)).getD false = false) := by
    rcases h with rfl | ⟨o, rfl, hf, ht⟩
    · simp
    · simp [hf, ht]
  refine ⟨?_, ?_, ?_, ?_⟩
  · unfold trackNFTPlay
    simp [hfalsy.1, hfalsy.2]
  · unfold trackNFTPlay
    simp [hfalsy.1, hfalsy.2]
  · intro opts2 st
    unfold trackNFTPlay
    by_cases hf : (opts2.map (fun o => o.forceTrack)).getD false
    · simp [hf]
    · by_cases ht : (opts2.map (fun o => o.thresholdReached)).getD false
      · simp [hf, ht]
      · simp only [hf, ht, Bool.not_false, Bool.and_self, if_true]
        intro x hx
        apply Finset.mem_insert_of_mem
        split <;> (try split) <;>
          first
            | exact Finset.mem_insert_of_mem hx
            | exact hx
  · intro opts2 st st2
    unfold trackNFTPlay
    by_cases hf : (opts2.map (fun o => o.forceTrack)).getD false
    · simp [hf]
    · by_cases ht : (opts2.map (fun o => o.thresholdReached)).getD false
      · simp [hf, ht]
      · simp [hf, ht]

/-- Witness for `trackNFTPlay_frame` at a concrete NFT with options
absent. -/
theorem trackNFTPlay_frame_witness :
    ((none : Option TrackOptions) = none ∨
      ∃ o, (none : Option TrackOptions) = some o ∧ o.forceTrack = false ∧
        o.thresholdReached = false) ∧
    (trackNFTPlay (fun _ => "mk0") (NFT.mk "0xabc" "1" "Song" "" "a" "i" "")
        7 none ∅).1 = .resolvedNoop ∧
    (trackNFTPlay (fun _ => "mk0") (NFT.mk "0xabc" "1" "Song" "" "a" "i" "")
        7 none ∅).2 =
      insert ((NFT.mk "0xabc" "1" "Song" "" "a" "i" "").contract ++ "-" ++
          (NFT.mk "0xabc" "1" "Song" "" "a" "i" "").tokenId)
        (if (if (NFT.mk "0xabc" "1" "Song" "" "a" "i" "").mediaKey ≠ "" then
              (NFT.mk "0xabc" "1" "Song" "" "a" "i" "").mediaKey
            else (fun _ => "mk0") (NFT.mk "0xabc" "1" "Song" "" "a" "i" "")) ≠
            "" then
          insert
            (if (NFT.mk "0xabc" "1" "Song" "" "a" "i" "").mediaKey ≠ "" then
              (NFT.mk "0xabc" "1" "Song" "" "a" "i" "").mediaKey
            else (fun _ => "mk0") (NFT.mk "0xabc" "1" "Song" "" "a" "i" ""))
            ∅
        else ∅) ∧
    (∀ opts2 (st : Finset String),
      st ⊆ (trackNFTPlay (fun _ => "mk0")
        (NFT.mk "0xabc" "1" "Song" "" "a" "i" "") 7 opts2 st).2) ∧
    (∀ opts2 (st st2 : Finset String),
      (trackNFTPlay (fun _ => "mk0")
          (NFT.mk "0xabc" "1" "Song" "" "a" "i" "") 7 opts2 st).1 =
        (trackNFTPlay (fun _ => "mk0")
          (NFT.mk "0xabc" "1" "Song" "" "a" "i" "") 7 opts2 st2).1) :=
  ⟨Or.inl rfl,
   trackNFTPlay_frame (fun _ => "mk0")
     (NFT.mk "0xabc" "1" "Song" "" "a" "i" "") 7 none ∅ (Or.inl rfl)⟩

/-! ## URL resolution (src/src/hooks/useNFTPreloader.ts)

Embedding of `extractIPFSHash`, `processArweaveUrl` and `processMediaUrl`.
The `CDN_CONFIG` imported from `./cdn` is not part of the sources; the
embedding takes its `baseUrl` falsy, i.e. every `if (CDN_CONFIG.baseUrl)`
block is skipped (the claims about resolution are stated with the CDN
rewrite disabled). The mobile user-agent probe is a Boolean parameter
`isMobile`. The two literal regexes are embedded with JS semantics:
leftmost match, alternation in written order, greedy repetition, and the
`/i` flag folding letter case (under which the class `[1-9A-HJ-NP-Za-km-z]`
accepts every alphanumeric character except `'0'`). -/

inductive MediaType where
  | image
  | audio
  | metadata
deriving DecidableEq

def IPFS_GATEWAYS : List String :=
  ["https://ipfs.io/ipfs/", "https://nftstorage.link/ipfs/",
   "https://cloudflare-ipfs.com/ipfs/", "https://gateway.pinata.cloud/ipfs/"]

def ARWEAVE_AUDIO_GATEWAYS : List String :=
  ["https://arweave.net/", "https://arweave.dev/",
   "https://gateway.arweave.net/", "https://arweave.crustapps.net/"]

/-- `[1-9A-HJ-NP-Za-km-z]` under the `/i` flag: every ASCII alphanumeric
except `'0'`. -/
def base58i (c : Char) : Bool := isAlnumC c && c ≠ '0'

/-- `[1-9A-HJ-NP-Za-km-z]`, case-sensitive (the direct-CID regex has no
`/i` flag). -/
def base58c (c : Char) : Bool :=
  (c.isDigit && c ≠ '0') || (c.isUpper && c ≠ 'I' && c ≠ 'O') ||
    (c.isLower && c ≠ 'l')

/-- Capture alternative `Qm[1-9A-HJ-NP-Za-km-z]{44}` (case-insensitive). -/
def tryCaptureQm (s : List Char) : Option (List Char) :=
  match litCI ("Qm".data) s with
  | some r => if 44 ≤ (r.takeWhile base58i).length then some (s.take 46)
              else none
  | none => none

/-- Capture alternative `bafy[a-zA-Z0-9]{55}` (case-insensitive). -/
def tryCaptureBafy (s : List Char) : Option (List Char) :=
  match litCI ("bafy".data) s with
  | some r => if 55 ≤ (r.takeWhile isAlnumC).length then some (s.take 59)
              else none
  | none => none

/-- The capture group
`([a-zA-Z0-9]{46,}|Qm[1-9A-HJ-NP-Za-km-z]{44}|bafy[a-zA-Z0-9]{55})`,
alternatives tried in written order, `{46,}` greedy. -/
def tryCapture (s : List Char) : Option (List Char) :=
  let run := s.takeWhile isAlnumC
  if 46 ≤ run.length then some run
  else
    match tryCaptureQm s with
    | some c => some c
    | none => tryCaptureBafy s

/-- Try the whole regex `(?:ipfs\/|\/ipfs\/|ipfs:)(…)` at one position. -/
def tryPrefAt (s : List Char) : Option (List Char) :=
  match (litCI ("ipfs/".data) s).bind tryCapture with
  | some c => some c
  | none =>
    match (litCI ("/ipfs/".data) s).bind tryCapture with
    | some c => some c
    | none => (litCI ("ipfs:".data) s).bind tryCapture

/-- Leftmost-position search of the IPFS-hash regex
(JS `String.prototype.match`), returning the first capture. -/
def searchIPFS : List Char → Option (List Char)
  | [] => none
  | c :: cs =>
    match tryPrefAt (c :: cs) with
    | some cap => some cap
    | none => searchIPFS cs

/-- Simplified `new URL(url)` host/path split (scheme `://` host `/` path);
the hostname is lowercased as the URL parser does. Only the
nftstorage.link hostname test (with a pathname containing /ipfs/) of
`extractIPFSHash` consumes this. -/
def urlParse (u : String) : Option (String × String) :=
  match splitOnceL ("://".data) u.data with
  | none => none
  | some (scheme, rest) =>
    if scheme ≠ [] ∧ scheme.all (fun c => c.isAlpha) then
      some (⟨toLow (rest.takeWhile (fun c => c ≠ '/'))⟩,
            ⟨rest.dropWhile (fun c => c ≠ '/')⟩)
    else none

/-- The anchored direct-CID test
`/^(Qm[1-9A-HJ-NP-Za-km-z]{44}|bafy[a-zA-Z0-9]{55}|[a-zA-Z0-9]{46})$/`. -/
def isDirectCID (u : String) : Bool :=
  let l := u.data
  (isPre ("Qm".data) l && decide ((l.drop 2).length = 44) &&
      (l.drop 2).all base58c) ||
  (isPre ("bafy".data) l && decide ((l.drop 4).length = 55) &&
      (l.drop 4).all isAlnumC) ||
  (decide (l.length = 46) && l.all isAlnumC)

/-- `extractIPFSHash` (src/src/hooks/useNFTPreloader.ts lines 263–298). -/
def extractIPFSHash (url : String) : Option String :=
  if url = "" then none
  else
    let u := replaceFirstL ("/ipfs/ipfs/".data) ("/ipfs/".data) url.data
    if isPre ("ipfs://".data) u then
      some ⟨replaceFirstL ("ipfs://".data) [] u⟩
    else
      match searchIPFS u with
      | some cap => some ⟨cap⟩
      | none =>
        match urlParse ⟨u⟩ with
        | some (host, path) =>
          if host = "nftstorage.link" ∧ hasSub path.data ("/ipfs/".data) then
            some ⟨u⟩
          else if isDirectCID ⟨u⟩ then some ⟨u⟩
          else none
        | none => if isDirectCID ⟨u⟩ then some ⟨u⟩ else none

def podsCharset (c : Char) : Bool := isAlnumC c || c = '_' || c = '-'

/-- Anchored match of the PODs pattern
`/^ar:\/\/([a-zA-Z0-9_-]+)\/([a-zA-Z0-9_-]+)(\.[a-zA-Z0-9]+)?$/`,
returning the three captures. -/
def podsMatch (url : String) : Option (List Char × List Char × List Char) :=
  if isPre ("ar://".data) url.data then
    match splitOnceL ['/'] (url.data.drop 5) with
    | none => none
    | some (s1, r) =>
      if s1 ≠ [] ∧ s1.all podsCharset then
        let s2 := r.takeWhile podsCharset
        if s2 = [] then none
        else
          match r.drop s2.length with
          | [] => some (s1, s2, [])
          | '.' :: body =>
            if body ≠ [] ∧ body.all isAlnumC then some (s1, s2, '.' :: body)
            else none
          | _ => none
      else none
  else none

/-- `lastSegment.split('?')[0].split('#')[0]`. -/
def cleanId (l : List Char) : List Char :=
  (l.takeWhile (fun c => c ≠ '?')).takeWhile (fun c => c ≠ '#')

/-- The tail of `processArweaveUrl` after the audio and PODs branches:
simple-id, single-segment and last-segment handling. -/
def processArweaveRest (url : String) : String :=
  if ¬ hasSub url.data ['/'] then
    "https://arweave.net/" ++ ⟨replaceFirstL ("ar://".data) [] url.data⟩
  else
    let segments := splitCharsOn '/' (url.data.drop 5)
    if segments.length = 1 then
      "https://arweave.net/" ++ ⟨cleanId (segments.headD [])⟩
    else
      "https://arweave.net/" ++ ⟨cleanId (segments.getLastD [])⟩

/-- `processArweaveUrl` (src/src/hooks/useNFTPreloader.ts lines 316–401). -/
def processArweaveUrl (url : String) (mediaType : MediaType) : String :=
  if url = "" then url
  else if isPre ("https://arweave.net/".data) url.data then url
  else if ¬ isPre ("ar://".data) url.data then url
  else if mediaType = .audio ∧ hasSub url.data ['/'] then
    match splitCharsOn '/' (replaceFirstL ("ar://".data) [] url.data) with
    | [] => url -- unreachable: splitCharsOn never returns []
    | txId :: rest =>
      "https://arweave.net/" ++ ⟨txId⟩ ++ "/" ++ ⟨joinChars '/' rest⟩
  else
    match podsMatch url with
    | some (_, s2, ext) =>
      if mediaType ≠ .audio then "https://arweave.net/" ++ ⟨s2⟩ ++ ⟨ext⟩
      else processArweaveRest url
    | none => processArweaveRest url

/-- `processMediaUrl` (src/src/hooks/useNFTPreloader.ts lines 413–562),
with the CDN rewrite disabled (see the section comment). -/
def processMediaUrl (isMobile : Bool) (url fallbackUrl : String)
    (mediaType : MediaType) : String :=
  if url = "" then fallbackUrl
  else if mediaType = .audio ∧ isPre ("ar://".data) url.data then
    processArweaveUrl url .audio
  else
    let u : List Char :=
      replaceFirstL ("/ipfs/ipfs/".data) ("/ipfs/".data) url.data
    if isPre ("ipfs://".data) u then
      let hash := rstripSlashes (replaceFirstL ("ipfs://".data) [] u)
      if isMobile then "https://cloudflare-ipfs.com/ipfs/" ++ ⟨hash⟩
      else "https://ipfs.io/ipfs/" ++ ⟨hash⟩
    else
      match extractIPFSHash ⟨u⟩ with
      | some h =>
        let cleanHash := rstripSlashes h.data
        if isMobile then "https://cloudflare-ipfs.com/ipfs/" ++ ⟨cleanHash⟩
        else "https://ipfs.io/ipfs/" ++ ⟨cleanHash⟩
      | none =>
        if isPre ("ar://".data) u then
          let txId := replaceFirstL ("ar://".data) [] u
          if mediaType = .audio ∧ hasSub txId ['/'] then
            match splitCharsOn '/' txId with
            | [] => fallbackUrl -- unreachable
            | t :: rest =>
              "https://arweave.net/" ++ ⟨t⟩ ++ "/" ++ ⟨joinChars '/' rest⟩
          else if hasSub txId ['/'] then
            match splitCharsOn '/' txId with
            | [] => fallbackUrl -- unreachable
            | t :: rest =>
              "https://arweave.net/" ++ ⟨t⟩ ++ "/" ++ ⟨joinChars '/' rest⟩
          else "https://arweave.net/" ++ ⟨txId⟩
        else if (⟨u⟩ : String) = "" then fallbackUrl else ⟨u⟩

/-- The fallback-URL list built by `handlePlayAudio`
(src/unnamed/part_001 lines 284–309). -/
def audioUrls (isMobile : Bool) (rawAudioUrl : String) : List String :=
  if isPre ("ar://".data) rawAudioUrl.data ∧
      hasSub rawAudioUrl.data ['/'] then
    match splitCharsOn '/' (replaceFirstL ("ar://".data) []
        rawAudioUrl.data) with
    | [] => [] -- unreachable
    | txId :: rest =>
      let filePath := joinChars '/' rest
      ["https://arweave.net/" ++ ⟨txId⟩ ++ "/" ++ ⟨filePath⟩,
       "https://arweave.dev/" ++ ⟨txId⟩ ++ "/" ++ ⟨filePath⟩,
       "https://arweave.net/" ++ ⟨txId⟩]
  else
    let processedUrl := processMediaUrl isMobile rawAudioUrl
      "/default-nft.png" .audio
    let l1 :=
      if processedUrl ≠ "" ∧ processedUrl ≠ "undefined" ∧
          processedUrl ≠ "null" then [processedUrl] else []
    let l2 :=
      if isPre ("ar://".data) rawAudioUrl.data then
        let direct := "https://arweave.net/" ++
          ⟨replaceFirstL ("ar://".data) [] rawAudioUrl.data⟩
        if direct ∉ l1 then l1 ++ [direct] else l1
      else l1
    if isPre ("https://".data) rawAudioUrl.data then
      if rawAudioUrl ∉ l2 then l2 ++ [rawAudioUrl] else l2
    else l2

/-! Support lemmas for the resolution proofs. -/

theorem isPre_append_drop (pat l : List Char) (h : isPre pat l = true) :
    l = pat ++ l.drop pat.length := by
  rw [isPre_iff] at h
  obtain ⟨t, ht⟩ := h
  conv_lhs => rw [← ht]
  rw [← ht, List.drop_left]

theorem replaceFirstL_of_isPre (pat repl l : List Char)
    (h : isPre pat l = true) (hl : l ≠ []) :
    replaceFirstL pat repl l = repl ++ l.drop pat.length := by
  cases l with
  | nil => exact absurd rfl hl
  | cons c cs => rw [replaceFirstL, if_pos h]

theorem replaceFirstL_no_occ (pat repl l : List Char)
    (h : hasSub l pat = false) : replaceFirstL pat repl l = l := by
  induction l with
  | nil => rfl
  | cons c cs ih =>
    rw [hasSub, Bool.or_eq_false_iff] at h
    rw [replaceFirstL, if_neg (by simp [h.1]), ih h.2]

theorem replaceFirstL_ne_nil (pat repl l : List Char) (hr : repl ≠ [])
    (hl : l ≠ []) : replaceFirstL pat repl l ≠ [] := by
  cases l with
  | nil => exact absurd rfl hl
  | cons c cs =>
    rw [replaceFirstL]
    split
    · simp [hr]
    · simp

theorem isPre_weaken (a b l : List Char) (h : isPre (a ++ b) l = true) :
    isPre a l = true := by
  rw [isPre_iff] at h ⊢
  exact (List.prefix_append a b).trans h

theorem hasSub_of_isPre (l pat : List Char) (h : isPre pat l = true) :
    hasSub l pat = true := by
  cases l with
  | nil => rw [hasSub]; exact h
  | cons c cs => rw [hasSub, h, Bool.true_or]

theorem litCI_some_isPre (lit s r : List Char) (h : litCI lit s = some r) :
    isPre (toLow lit) (toLow s) = true := by
  induction lit generalizing s with
  | nil => simp [toLow, isPre]
  | cons p ps ih =>
    cases s with
    | nil => cases h
    | cons c cs =>
      rw [litCI] at h
      split at h
      · rename_i hpc
        simp only [toLow, List.map_cons, isPre, Bool.and_eq_true,
          decide_eq_true_eq]
        exact ⟨hpc, ih cs h⟩
      · cases h

theorem splitOnceL_spec (pat l a b : List Char)
    (h : splitOnceL pat l = some (a, b)) : l = a ++ pat ++ b := by
  induction l generalizing a b with
  | nil =>
    rw [splitOnceL] at h
    split at h
    · rename_i hpat
      rw [Option.some.injEq, Prod.mk.injEq] at h
      obtain ⟨ha, hb⟩ := h
      subst ha
      subst hb
      simp [hpat]
    · cases h
  | cons c cs ih =>
    rw [splitOnceL] at h
    split at h
    · rename_i hp
      rw [Option.some.injEq, Prod.mk.injEq] at h
      obtain ⟨ha, hb⟩ := h
      subst ha
      subst hb
      simpa using isPre_append_drop pat (c :: cs) hp
    · rw [Option.map_eq_some'] at h
      obtain ⟨⟨a', b'⟩, hsp, heq⟩ := h
      rw [Prod.mk.injEq] at heq
      obtain ⟨ha, hb⟩ := heq
      subst ha
      subst hb
      simp [ih a' b' hsp]

theorem takeWhile_all_eq (p : Char → Bool) (l : List Char)
    (h : l.all p = true) : l.takeWhile p = l := by
  induction l with
  | nil => rfl
  | cons c cs ih =>
    rw [List.all_cons, Bool.and_eq_true] at h
    rw [List.takeWhile_cons, if_pos h.1, ih h.2]

theorem takeWhile_append_all (p : Char → Bool) (xs ys : List Char)
    (h : xs.all p = true) :
    (xs ++ ys).takeWhile p = xs ++ ys.takeWhile p := by
  induction xs with
  | nil => rfl
  | cons c cs ih =>
    rw [List.all_cons, Bool.and_eq_true] at h
    rw [List.cons_append, List.takeWhile_cons, if_pos h.1, ih h.2,
      List.cons_append]

theorem all_not_mem (p : Char → Bool) (l : List Char) (a : Char)
    (h : l.all p = true) (ha : p a = false) : a ∉ l := by
  intro hmem
  rw [List.all_eq_true] at h
  rw [h a hmem] at ha
  cases ha

theorem noIpfs_not_infix (l : List Char)
    (h : hasSub (toLow l) ("ipfs".data) = false) :
    ¬ ("ipfs".data <:+: l) := by
  intro hin
  have hmap := hin.map Char.toLower
  rw [show List.map Char.toLower ("ipfs".data) = "ipfs".data from rfl] at hmap
  rw [hasSub_eq_false_iff] at h
  exact h hmap

theorem dedup_id_of_noIpfs (l : List Char)
    (h : hasSub (toLow l) ("ipfs".data) = false) :
    replaceFirstL ("/ipfs/ipfs/".data) ("/ipfs/".data) l = l := by
  apply replaceFirstL_no_occ
  rw [hasSub_eq_false_iff]
  intro hin
  have h1 : "ipfs".data <:+: ("/ipfs/ipfs/".data) :=
    ⟨"/".data, "/ipfs/".data, rfl⟩
  exact noIpfs_not_infix l h (h1.trans hin)

theorem not_ipfs_pre (l : List Char)
    (h : hasSub (toLow l) ("ipfs".data) = false) :
    isPre ("ipfs://".data) l = false := by
  by_contra hb
  rw [Bool.not_eq_false] at hb
  rw [isPre_iff] at hb
  exact noIpfs_not_infix l h
    (infixOfPre ((List.prefix_append ("ipfs".data) ("://".data)).trans hb))

theorem tryPrefAt_some_hasSub (s : List Char) (cap : List Char)
    (h : tryPrefAt s = some cap) :
    hasSub (toLow s) ("ipfs".data) = true := by
  have key : (∃ r, litCI ("ipfs/".data) s = some r) ∨
      (∃ r, litCI ("/ipfs/".data) s = some r) ∨
      (∃ r, litCI ("ipfs:".data) s = some r) := by
    rw [tryPrefAt] at h
    cases e1 : litCI ("ipfs/".data) s with
    | some r => exact Or.inl ⟨r, rfl⟩
    | none =>
      rw [e1] at h
      simp only [Option.none_bind] at h
      cases e2 : litCI ("/ipfs/".data) s with
      | some r => exact Or.inr (Or.inl ⟨r, rfl⟩)
      | none =>
        rw [e2] at h
        simp only [Option.none_bind] at h
        cases e3 : litCI ("ipfs:".data) s with
        | some r => exact Or.inr (Or.inr ⟨r, rfl⟩)
        | none => rw [e3] at h; simp at h
  rcases key with ⟨r, hr⟩ | ⟨r, hr⟩ | ⟨r, hr⟩
  · have := litCI_some_isPre _ _ _ hr
    rw [show toLow ("ipfs/".data) = "ipfs/".data from rfl] at this
    exact hasSub_of_isPre _ _
      (isPre_weaken ("ipfs".data) ("/".data) _ this)
  · have hthis := litCI_some_isPre _ _ _ hr
    rw [show toLow ("/ipfs/".data) = "/ipfs/".data from rfl] at hthis
    rw [isPre_iff] at hthis
    obtain ⟨t, ht⟩ := hthis
    rw [hasSub_iff]
    exact ⟨['/'], '/' :: t, by rw [← ht]; rfl⟩
  · have := litCI_some_isPre _ _ _ hr
    rw [show toLow ("ipfs:".data) = "ipfs:".data from rfl] at this
    exact hasSub_of_isPre _ _
      (isPre_weaken ("ipfs".data) (":".data) _ this)

theorem searchIPFS_none (l : List Char)
    (h : hasSub (toLow l) ("ipfs".data) = false) : searchIPFS l = none := by
  induction l with
  | nil => rfl
  | cons c cs ih =>
    have htail : hasSub (toLow cs) ("ipfs".data) = false := by
      rw [hasSub_eq_false_iff] at h ⊢
      intro hin
      exact h (hin.trans (List.infix_cons List.infix_rfl))
    rw [searchIPFS]
    cases htp : tryPrefAt (c :: cs) with
    | some cap =>
      rw [tryPrefAt_some_hasSub (c :: cs) cap htp] at h
      cases h
    | none => exact ih htail

theorem noIpfs_infix (u l : List Char)
    (h : hasSub (toLow u) ("ipfs".data) = false) (hl : l <:+: u) :
    hasSub (toLow l) ("ipfs".data) = false := by
  rw [hasSub_eq_false_iff] at h ⊢
  intro hin
  exact h (hin.trans (hl.map Char.toLower))

theorem noIpfs_append_left (p x : List Char)
    (hp : 'i' ∉ toLow p)
    (hx : hasSub (toLow x) ("ipfs".data) = false) :
    hasSub (toLow (p ++ x)) ("ipfs".data) = false := by
  rw [hasSub_eq_false_iff] at hx ⊢
  intro hinf
  obtain ⟨s, t, heq⟩ := hinf
  rw [toLow, List.map_append] at heq
  by_cases hlen : s.length < p.length
  · apply hp
    have h1 : (s ++ "ipfs".data ++ t)[s.length]? = some 'i' := by
      rw [List.append_assoc, List.getElem?_append_right (le_refl s.length)]
      simp
    rw [heq, List.getElem?_append] at h1
    rw [if_pos (by simpa using hlen)] at h1
    exact List.getElem?_mem h1
  · push_neg at hlen
    apply hx
    have h2 := congrArg (List.drop p.length) heq
    rw [List.append_assoc,
      List.drop_append_of_le_length (by simpa using hlen)] at h2
    rw [List.drop_append_of_le_length (by simp)] at h2
    rw [show List.drop p.length (List.map Char.toLower p) = [] by
      simp] at h2
    rw [List.nil_append] at h2
    exact ⟨s.drop p.length, t, by rw [List.append_assoc, h2]; rfl⟩

theorem noIpfs_append_right (x q : List Char)
    (hx : hasSub (toLow x) ("ipfs".data) = false)
    (hq : ∀ c ∈ toLow q, c ∉ ("ipfs".data)) :
    hasSub (toLow (x ++ q)) ("ipfs".data) = false := by
  rw [hasSub_eq_false_iff] at hx ⊢
  intro hinf
  obtain ⟨s, t, heq⟩ := hinf
  rw [toLow, List.map_append] at heq
  by_cases hlen : s.length + 4 ≤ x.length
  · apply hx
    have h2 := congrArg (List.take x.length) heq
    rw [List.take_append_eq_append_take, List.take_append_eq_append_take]
      at h2
    rw [List.take_of_length_le (by omega)] at h2
    rw [List.take_of_length_le (by simp; omega)] at h2
    rw [show List.take x.length (List.map Char.toLower x ++
        List.map Char.toLower q) = List.map Char.toLower x by
      rw [List.take_append_eq_append_take,
        List.take_of_length_le (by simp),
        show x.length - (List.map Char.toLower x).length = 0 by simp,
        List.take_zero, List.append_nil]] at h2
    exact ⟨s, _, h2⟩
  · push_neg at hlen
    have hs : (s ++ "ipfs".data ++ t)[s.length + 3]? = some 's' := by
      rw [List.append_assoc,
        List.getElem?_append_right (by omega : s.length ≤ s.length + 3)]
      simp [show s.length + 3 - s.length = 3 by omega]
    rw [heq, List.getElem?_append] at hs
    rw [if_neg (by simp; omega)] at hs
    exact hq 's' (List.getElem?_mem hs) (by decide)

theorem base58c_alnum (c : Char) (h : base58c c = true) : isAlnumC c = true := by
  unfold base58c at h
  unfold isAlnumC Char.isAlpha
  rcases Bool.or_eq_true_iff.mp h with h1 | h2
  · rcases Bool.or_eq_true_iff.mp h1 with h3 | h4
    · simp only [Bool.and_eq_true] at h3
      simp [h3.1]
    · simp only [Bool.and_eq_true] at h4
      simp [h4.1.1]
  · simp only [Bool.and_eq_true] at h2
    simp [h2.1]

theorem isDirectCID_all (u : String) (h : isDirectCID u = true) :
    u.data.all isAlnumC = true := by
  unfold isDirectCID at h
  rcases Bool.or_eq_true_iff.mp h with h1 | h2
  · rcases Bool.or_eq_true_iff.mp h1 with h3 | h4
    · simp only [Bool.and_eq_true] at h3
      obtain ⟨⟨hpre, _⟩, hall⟩ := h3
      have hdec := isPre_append_drop _ _ hpre
      rw [List.all_eq_true] at hall ⊢
      intro c hc
      rw [hdec] at hc
      rcases List.mem_append.mp hc with hm | hm
      · rcases List.mem_cons.mp hm with rfl | hm2
        · decide
        · rcases List.mem_cons.mp hm2 with rfl | hm3
          · decide
          · cases hm3
      · exact base58c_alnum c (hall c hm)
    · simp only [Bool.and_eq_true] at h4
      obtain ⟨⟨hpre, _⟩, hall⟩ := h4
      have hdec := isPre_append_drop _ _ hpre
      rw [List.all_eq_true] at hall ⊢
      intro c hc
      rw [hdec] at hc
      rcases List.mem_append.mp hc with hm | hm
      · rcases List.mem_cons.mp hm with rfl | hm2
        · decide
        · rcases List.mem_cons.mp hm2 with rfl | hm3
          · decide
          · rcases List.mem_cons.mp hm3 with rfl | hm4
            · decide
            · rcases List.mem_cons.mp hm4 with rfl | hm5
              · decide
              · cases hm5
      · exact hall c hm
  · simp only [Bool.and_eq_true] at h2
    exact h2.2

theorem isDirectCID_false_of_not_alnum (u : String)
    (h : u.data.all isAlnumC = false) : isDirectCID u = false := by
  by_contra hb
  rw [Bool.not_eq_false] at hb
  rw [isDirectCID_all u hb] at h
  cases h

theorem urlParse_path_suffix (v host path : String)
    (h : urlParse v = some (host, path)) : path.data <:+ v.data := by
  unfold urlParse at h
  cases hsp : splitOnceL ("://".data) v.data with
  | none => rw [hsp] at h; cases h
  | some pr =>
    obtain ⟨scheme, rest⟩ := pr
    rw [hsp] at h
    dsimp only at h
    by_cases hcond : scheme ≠ [] ∧ scheme.all (fun c => c.isAlpha) = true
    · rw [if_pos hcond] at h
      rw [Option.some.injEq, Prod.mk.injEq] at h
      obtain ⟨-, hpe⟩ := h
      have hrest : rest <:+ v.data := by
        rw [splitOnceL_spec _ _ _ _ hsp, List.append_assoc]
        exact (List.suffix_append _ rest).trans (List.suffix_append scheme _)
      rw [← hpe]
      exact (List.dropWhile_suffix _).trans hrest
    · rw [if_neg hcond] at h
      cases h

theorem extractIPFSHash_none (v : String)
    (h2 : hasSub (toLow v.data) ("ipfs".data) = false)
    (h3 : isDirectCID v = false) :
    extractIPFSHash v = none := by
  unfold extractIPFSHash
  by_cases hv : v = ""
  · simp [hv]
  · rw [if_neg hv]
    dsimp only
    rw [dedup_id_of_noIpfs v.data h2]
    rw [show (String.mk v.data) = v from rfl]
    rw [not_ipfs_pre v.data h2]
    simp only [Bool.false_eq_true, if_false]
    rw [searchIPFS_none v.data h2]
    cases hup : urlParse v with
    | none => simp [h3]
    | some hp =>
      obtain ⟨host, path⟩ := hp
      have hpath : ¬ (host = "nftstorage.link" ∧
          hasSub path.data ("/ipfs/".data) = true) := by
        rintro ⟨-, hps⟩
        have hsuffix := urlParse_path_suffix v host path hup
        rw [hasSub_iff] at hps
        have h0 : "ipfs".data <:+: ("/ipfs/".data) := ⟨['/'], ['/'], rfl⟩
        exact noIpfs_not_infix v.data h2
          ((h0.trans hps).trans (infixOfSuf hsuffix))
      simp only [hpath, if_false, h3, Bool.false_eq_true]

/-- Any non-empty URL with no IPFS pattern, not shaped as a bare CID and
not an `ar://` URL is a fixed point of `processMediaUrl`. -/
theorem resolve_fixpoint (isMobile : Bool) (mt : MediaType) (v fb : String)
    (h1 : v ≠ "")
    (h2 : hasSub (toLow v.data) ("ipfs".data) = false)
    (h3 : isDirectCID v = false)
    (h4 : isPre ("ar://".data) v.data = false) :
    processMediaUrl isMobile v fb mt = v := by
  unfold processMediaUrl
  rw [if_neg h1]
  rw [if_neg (by rintro ⟨-, har⟩; rw [h4] at har; cases har)]
  dsimp only
  rw [dedup_id_of_noIpfs v.data h2]
  rw [not_ipfs_pre v.data h2]
  simp only [Bool.false_eq_true, if_false]
  rw [show (String.mk v.data) = v from rfl]
  rw [extractIPFSHash_none v h2 h3]
  rw [h4]
  simp only [Bool.false_eq_true, if_false]
  rw [if_neg h1]

theorem isPre_head_false (p c : Char) (ps cs : List Char) (h : p ≠ c) :
    isPre (p :: ps) (c :: cs) = false := by
  simp [isPre, h]

theorem ne_empty_of_ar (u : String) (rest : List Char)
    (hu : u.data = "ar://".data ++ rest) : u ≠ "" := by
  intro he
  rw [he] at hu
  simp at hu

theorem all_false_of_mem (p : Char → Bool) (l : List Char) (a : Char)
    (ha : a ∈ l) (hpa : p a = false) : l.all p = false := by
  by_contra hb
  rw [Bool.not_eq_false, List.all_eq_true] at hb
  rw [hb a ha] at hpa
  cases hpa

/-- `https://arweave.net/…` outputs with no IPFS pattern in the path are
fixed points of `processMediaUrl`. -/
theorem fixpoint_net (isMobile : Bool) (mt : MediaType) (fb : String)
    (y : List Char) (hy : hasSub (toLow y) ("ipfs".data) = false) :
    processMediaUrl isMobile ("https://arweave.net/" ++ (⟨y⟩ : String)) fb
      mt = "https://arweave.net/" ++ (⟨y⟩ : String) := by
  have hdata : ("https://arweave.net/" ++ (⟨y⟩ : String)).data =
      "https://arweave.net/".data ++ y := by
    rw [String.data_append]
  apply resolve_fixpoint
  · intro he
    have := congrArg String.data he
    rw [hdata] at this
    simp at this
  · rw [hdata]
    exact noIpfs_append_left _ y (by decide) hy
  · apply isDirectCID_false_of_not_alnum
    rw [hdata]
    exact all_false_of_mem _ _ ':'
      (List.mem_append.mpr (Or.inl (by decide))) (by decide)
  · rw [hdata]
    rw [show "https://arweave.net/".data =
      'h' :: "ttps://arweave.net/".data from rfl]
    rw [List.cons_append]
    exact isPre_head_false _ _ _ _ (by decide)

theorem net_shape (tx join2 : List Char) :
    ("https://arweave.net/" ++ (⟨tx⟩ : String) ++ "/" ++
      (⟨join2⟩ : String)) =
    "https://arweave.net/" ++ (⟨tx ++ '/' :: join2⟩ : String) := by
  apply String.ext
  simp only [String.data_append]
  show ("https://arweave.net/".data ++ tx) ++ ['/'] ++ join2 =
    "https://arweave.net/".data ++ (tx ++ '/' :: join2)
  simp [List.append_assoc]

theorem payload_noipfs (rest tx : List Char) (rs : List (List Char))
    (hsp : splitCharsOn '/' rest = tx :: rs)
    (hrest : hasSub (toLow rest) ("ipfs".data) = false) :
    hasSub (toLow (tx ++ '/' :: joinChars '/' rs)) ("ipfs".data) = false := by
  have hjoin := joinChars_splitCharsOn '/' rest
  rw [hsp] at hjoin
  cases rs with
  | nil =>
    have htx : tx = rest := by simpa [joinChars] using hjoin
    rw [show joinChars '/' ([] : List (List Char)) = [] from rfl]
    rw [htx]
    apply noIpfs_append_right rest ['/'] hrest
    intro c hc
    simp only [toLow, List.map_cons, List.map_nil, List.mem_singleton] at hc
    subst hc
    decide
  | cons b bs =>
    have hsh : tx ++ '/' :: joinChars '/' (b :: bs) = rest := by
      simpa [joinChars] using hjoin
    rw [hsh]
    exact hrest

theorem processMediaUrl_ar_audio (isMobile : Bool) (u fb : String)
    (har : isPre ("ar://".data) u.data = true) :
    processMediaUrl isMobile u fb .audio = processArweaveUrl u .audio := by
  have hne : u ≠ "" := by
    intro he
    rw [he] at har
    cases har
  unfold processMediaUrl
  rw [if_neg hne, if_pos (by exact ⟨by trivial, har⟩)]

theorem processArweaveUrl_audio_eval (u : String) (rest : List Char)
    (hu : u.data = "ar://".data ++ rest) :
    processArweaveUrl u .audio =
      (match splitCharsOn '/' rest with
       | [] => u
       | tx :: rs =>
         "https://arweave.net/" ++ (⟨tx⟩ : String) ++ "/" ++
           (⟨joinChars '/' rs⟩ : String)) := by
  have har : isPre ("ar://".data) u.data = true := by
    rw [hu, isPre_iff]
    exact List.prefix_append _ _
  have hne := ne_empty_of_ar u rest hu
  have harw : isPre ("https://arweave.net/".data) u.data = false := by
    rw [hu]
    rw [show "ar://".data ++ rest = 'a' :: ('r' :: ':' :: '/' :: '/' :: rest)
      from rfl]
    rw [show "https://arweave.net/".data =
      'h' :: "ttps://arweave.net/".data from rfl]
    exact isPre_head_false _ _ _ _ (by decide)
  have hslash : hasSub u.data ['/'] = true := by
    rw [hasSub_iff]
    exact ⟨['a', 'r', ':'], '/' :: rest, by rw [hu]; rfl⟩
  have hrepl : replaceFirstL ("ar://".data) [] u.data = rest := by
    rw [replaceFirstL_of_isPre _ _ _ har (by rw [hu]; simp)]
    rw [List.nil_append, hu, List.drop_left]
  unfold processArweaveUrl
  rw [if_neg hne]
  rw [harw]
  simp only [Bool.false_eq_true, if_false]
  rw [har]
  rw [if_neg (by simp)]
  rw [if_pos (show True ∧ hasSub u.data ['/'] = true from ⟨trivial, hslash⟩)]
  rw [hrepl]

theorem processMediaUrl_ar_nonaudio_eval (isMobile : Bool)
    (mt : MediaType) (u fb : String) (rest : List Char)
    (hu : u.data = "ar://".data ++ rest)
    (hmt : mt ≠ .audio)
    (h2 : hasSub (toLow u.data) ("ipfs".data) = false)
    (h3 : isDirectCID u = false) :
    processMediaUrl isMobile u fb mt =
      (if hasSub rest ['/'] = true then
        match splitCharsOn '/' rest with
        | [] => fb
        | t :: rs =>
          "https://arweave.net/" ++ (⟨t⟩ : String) ++ "/" ++
            (⟨joinChars '/' rs⟩ : String)
      else "https://arweave.net/" ++ (⟨rest⟩ : String)) := by
  have har : isPre ("ar://".data) u.data = true := by
    rw [hu, isPre_iff]
    exact List.prefix_append _ _
  have hne := ne_empty_of_ar u rest hu
  have hrepl : replaceFirstL ("ar://".data) [] u.data = rest := by
    rw [replaceFirstL_of_isPre _ _ _ har (by rw [hu]; simp)]
    rw [List.nil_append, hu, List.drop_left]
  unfold processMediaUrl
  rw [if_neg hne]
  rw [if_neg (by rintro ⟨hmt2, -⟩; exact hmt hmt2)]
  dsimp only
  rw [dedup_id_of_noIpfs u.data h2]
  rw [not_ipfs_pre u.data h2]
  simp only [Bool.false_eq_true, if_false]
  rw [show (String.mk u.data) = u from rfl]
  rw [extractIPFSHash_none u h2 h3]
  rw [har]
  simp only [if_true]
  rw [hrepl]
  rw [if_neg (by rintro ⟨hmt2, -⟩; exact hmt hmt2)]

/-- C8 (amended). With the CDN rewrite disabled, resolution is
idempotent on every rawUrl that contains no IPFS hash pattern — no
`"ipfs"` substring in any letter case and not itself a bare CID-shaped
token; in particular such URLs already of the form
`https://arweave.net/...` are returned unchanged. (As stated over all
supported URLs the claim fails: inputs embedding an IPFS hash pattern,
e.g. `ipfs://<cid>/<subpath>`, are rewritten again on a second pass — see
the counterexample.) -/
theorem resolve_idempotent_noipfs :
    (∀ (m : Bool) (mt : MediaType) (u fb : String),
        hasSub (toLow u.data) ("ipfs".data) = false →
        isDirectCID u = false → u ≠ "" →
        processMediaUrl m (processMediaUrl m u fb mt) fb mt =
          processMediaUrl m u fb mt) ∧
    (∀ (m : Bool) (mt : MediaType) (x fb : String),
        hasSub (toLow x.data) ("ipfs".data) = false →
        processMediaUrl m ("https://arweave.net/" ++ x) fb mt =
          "https://arweave.net/" ++ x) := by
  constructor
  · intro m mt u fb h2 h3 h1
    by_cases har : isPre ("ar://".data) u.data = true
    · obtain ⟨t0, ht0⟩ : "ar://".data <+: u.data := (isPre_iff _ _).mp har
      have hu : u.data = "ar://".data ++ t0 := ht0.symm
      have hrest : hasSub (toLow t0) ("ipfs".data) = false :=
        noIpfs_infix u.data t0 h2
          (infixOfSuf ⟨"ar://".data, ht0⟩)
      by_cases hmt : mt = .audio
      · subst hmt
        rw [processMediaUrl_ar_audio m u fb har,
          processArweaveUrl_audio_eval u t0 hu]
        cases hsp : splitCharsOn '/' t0 with
        | nil => exact absurd hsp (splitCharsOn_ne_nil _ _)
        | cons tx rs =>
          dsimp only
          rw [net_shape]
          exact fixpoint_net m .audio fb _ (payload_noipfs t0 tx rs hsp hrest)
      · rw [processMediaUrl_ar_nonaudio_eval m mt u fb t0 hu hmt h2 h3]
        by_cases hsl : hasSub t0 ['/'] = true
        · rw [if_pos hsl]
          cases hsp : splitCharsOn '/' t0 with
          | nil => exact absurd hsp (splitCharsOn_ne_nil _ _)
          | cons tx rs =>
            dsimp only
            rw [net_shape]
            exact fixpoint_net m mt fb _ (payload_noipfs t0 tx rs hsp hrest)
        · rw [if_neg hsl]
          exact fixpoint_net m mt fb t0 hrest
    · have hfix := resolve_fixpoint m mt u fb h1 h2 h3
        (Bool.not_eq_true _ ▸ Bool.of_not_eq_true har)
      rw [hfix]
      exact hfix
  · intro m mt x fb hx
    have := fixpoint_net m mt fb x.data hx
    rwa [show (String.mk x.data) = x from rfl] at this

/-- Witness for `resolve_idempotent_noipfs` at a concrete Arweave URL and
a concrete `https://arweave.net/` URL. -/
theorem resolve_idempotent_noipfs_witness :
    (hasSub (toLow ("ar://t1/t2.png").data) ("ipfs".data) = false ∧
     isDirectCID "ar://t1/t2.png" = false ∧
     ("ar://t1/t2.png" : String) ≠ "") ∧
    processMediaUrl false
        (processMediaUrl false "ar://t1/t2.png" "/default-nft.png" .image)
        "/default-nft.png" .image =
      processMediaUrl false "ar://t1/t2.png" "/default-nft.png" .image ∧
    processMediaUrl false ("https://arweave.net/" ++ "sometx")
        "/default-nft.png" .image = "https://arweave.net/" ++ "sometx" :=
  ⟨⟨by decide, by decide, by decide⟩,
   resolve_idempotent_noipfs.1 false .image "ar://t1/t2.png"
     "/default-nft.png" (by decide) (by decide) (by decide),
   resolve_idempotent_noipfs.2 false .image "sometx" "/default-nft.png"
     (by decide)⟩

/-- Counterexample for C8 as stated: for the supported rawUrl
`ipfs://<CIDv0>/file.mp3`, feeding the output of `resolve` back into `resolve`
does not return the same value — the first pass yields
`https://ipfs.io/ipfs/<cid>/file.mp3` and the second pass extracts the CID
and drops the sub-path. -/
theorem resolve_idempotence_counterexample :
    processMediaUrl false
        (processMediaUrl false
          "ipfs://QmYwAPJzv5CZsnAzt8auVZRn1pfejgF6HemVllAGzCC5mQ/file.mp3"
          "/default-nft.png" .image)
        "/default-nft.png" .image ≠
      processMediaUrl false
        "ipfs://QmYwAPJzv5CZsnAzt8auVZRn1pfejgF6HemVllAGzCC5mQ/file.mp3"
        "/default-nft.png" .image := by decide

/-- C5. For audio media, resolving a multi-segment Arweave URL
preserves the sub-path exactly:
`resolve("ar://abc123XYZ/sub/file.mp3", "audio")` returns
`"https://arweave.net/abc123XYZ/sub/file.mp3"` on desktop and mobile alike
(src/src/hooks/useNFTPreloader.ts, `processMediaUrl`/`processArweaveUrl`
audio branches). -/
theorem resolve_audio_arweave_path (isMobile : Bool) :
    processMediaUrl isMobile "ar://abc123XYZ/sub/file.mp3"
      "/default-nft.png" .audio =
    "https://arweave.net/abc123XYZ/sub/file.mp3" := by
  cases isMobile <;> decide

/-- Counterexample for C9 as stated: the unsupported URL
`"a/ipfs/ipfs/b"` is returned neither unchanged nor as the placeholder —
the duplicate `/ipfs/ipfs/` segment is collapsed to `/ipfs/`. -/
theorem resolve_unsupported_counterexample :
    processMediaUrl false "a/ipfs/ipfs/b" "/default-nft.png" .image ≠
        "a/ipfs/ipfs/b" ∧
    processMediaUrl false "a/ipfs/ipfs/b" "/default-nft.png" .image ≠
        "/default-nft.png" ∧
    processMediaUrl false "a/ipfs/ipfs/b" "/default-nft.png" .image =
        "a/ipfs/b" := by
  refine ⟨by decide, by decide, by decide⟩

/-- C9 (amended). `resolve` is total: for an unsupported URL (no
`ipfs://` or `ar://` scheme and no extractable IPFS hash) it returns the
input unchanged — except that a duplicated `/ipfs/ipfs/` path segment is
collapsed to `/ipfs/` — and for the empty string it returns the configured
fallback placeholder rather than failing
(src/src/hooks/useNFTPreloader.ts, `processMediaUrl`). -/
theorem resolve_unsupported_passthrough (m : Bool) (mt : MediaType)
    (u fb : String)
    (hne : u ≠ "")
    (haru : isPre ("ar://".data) u.data = false)
    (hard : isPre ("ar://".data)
      (replaceFirstL ("/ipfs/ipfs/".data) ("/ipfs/".data) u.data) = false)
    (hipfs : isPre ("ipfs://".data)
      (replaceFirstL ("/ipfs/ipfs/".data) ("/ipfs/".data) u.data) = false)
    (hex : extractIPFSHash
      ⟨replaceFirstL ("/ipfs/ipfs/".data) ("/ipfs/".data) u.data⟩ = none) :
    processMediaUrl m u fb mt =
      ⟨replaceFirstL ("/ipfs/ipfs/".data) ("/ipfs/".data) u.data⟩ ∧
    processMediaUrl m "" fb mt = fb := by
  constructor
  · unfold processMediaUrl
    rw [if_neg hne]
    rw [if_neg (by rintro ⟨-, h⟩; rw [haru] at h; cases h)]
    dsimp only
    rw [hipfs]
    simp only [Bool.false_eq_true, if_false]
    rw [hex]
    rw [hard]
    simp only [Bool.false_eq_true, if_false]
    rw [if_neg ?_]
    intro hmk
    have hdata := congrArg String.data hmk
    have hempty : replaceFirstL ("/ipfs/ipfs/".data) ("/ipfs/".data)
        u.data = [] := hdata
    refine replaceFirstL_ne_nil _ _ _ (by decide) ?_ hempty
    intro hud
    exact hne (String.ext (hud.trans rfl))
  · simp [processMediaUrl]

/-- Witness for `resolve_unsupported_passthrough` at the concrete
unsupported URL `"a/ipfs/ipfs/b"`. -/
theorem resolve_unsupported_passthrough_witness :
    (("a/ipfs/ipfs/b" : String) ≠ "" ∧
     isPre ("ar://".data) ("a/ipfs/ipfs/b").data = false ∧
     extractIPFSHash ⟨replaceFirstL ("/ipfs/ipfs/".data) ("/ipfs/".data)
       ("a/ipfs/ipfs/b").data⟩ = none) ∧
    processMediaUrl false "a/ipfs/ipfs/b" "/default-nft.png" .image =
      ⟨replaceFirstL ("/ipfs/ipfs/".data) ("/ipfs/".data)
        ("a/ipfs/ipfs/b").data⟩ ∧
    processMediaUrl false "" "/default-nft.png" .image = "/default-nft.png" :=
  ⟨⟨by decide, by decide, by decide⟩,
   resolve_unsupported_passthrough false .image "a/ipfs/ipfs/b"
     "/default-nft.png" (by decide) (by decide) (by decide) (by decide)
     (by decide)⟩

theorem splitOnceL_char (a : Char) (xs ys : List Char) (h : a ∉ xs) :
    splitOnceL [a] (xs ++ a :: ys) = some (xs, ys) := by
  induction xs with
  | nil => simp [splitOnceL, isPre]
  | cons c cs ih =>
    simp only [List.mem_cons, not_or] at h
    rw [List.cons_append, splitOnceL]
    rw [if_neg (by
      simp only [isPre, Bool.and_eq_true, decide_eq_true_eq]
      rintro ⟨rfl, -⟩
      exact h.1 rfl)]
    rw [ih h.2]
    rfl

/-- Counterexample for C6 as stated: for the non-audio two-ID PODs URL
`ar://t1/t2.mp3` the top-level resolver `processMediaUrl` keeps the full
`<txid1>/<txid2>` path instead of dropping the first transaction id. -/
theorem resolve_pods_counterexample :
    processMediaUrl false "ar://t1/t2.mp3" "/default-nft.png" .image ≠
        "https://arweave.net/t2.mp3" ∧
    processMediaUrl false "ar://t1/t2.mp3" "/default-nft.png" .image =
        "https://arweave.net/t1/t2.mp3" := by
  refine ⟨by decide, by decide⟩

/-- C6 (amended). The Arweave-specific resolver `processArweaveUrl`
does drop the first transaction id for non-audio two-ID PODs URLs
`ar://<txid1>/<txid2>[.ext]`, returning
`https://arweave.net/<txid2>[.ext]` — but the top-level `processMediaUrl`
resolver keeps the full `<txid1>/<txid2>[.ext]` path for non-audio
`ar://` URLs (see the counterexample)
(src/src/hooks/useNFTPreloader.ts lines 350–365 versus 527–544). -/
theorem processArweaveUrl_pods_drop (s1 s2 ext : String) (mt : MediaType)
    (hmt : mt ≠ .audio)
    (h1 : s1.data ≠ []) (h1c : s1.data.all podsCharset = true)
    (h2 : s2.data ≠ []) (h2c : s2.data.all podsCharset = true)
    (hext : ext = "" ∨
      ∃ b, ext.data = '.' :: b ∧ b ≠ [] ∧ b.all isAlnumC = true) :
    processArweaveUrl ("ar://" ++ s1 ++ "/" ++ s2 ++ ext) mt =
      "https://arweave.net/" ++ s2 ++ ext := by
  have hUdata : ("ar://" ++ s1 ++ "/" ++ s2 ++ ext).data =
      "ar://".data ++ (s1.data ++ '/' :: (s2.data ++ ext.data)) := by
    simp [String.data_append, List.append_assoc]
  have hne := ne_empty_of_ar _ _ hUdata
  have har : isPre ("ar://".data) ("ar://" ++ s1 ++ "/" ++ s2 ++ ext).data =
      true := by
    rw [hUdata, isPre_iff]
    exact List.prefix_append _ _
  have harw : isPre ("https://arweave.net/".data)
      ("ar://" ++ s1 ++ "/" ++ s2 ++ ext).data = false := by
    rw [hUdata]
    rw [show "ar://".data ++ (s1.data ++ '/' :: (s2.data ++ ext.data)) =
      'a' :: ('r' :: ':' :: '/' :: '/' :: (s1.data ++ '/' :: (s2.data ++ ext.data)))
      from rfl]
    rw [show "https://arweave.net/".data =
      'h' :: "ttps://arweave.net/".data from rfl]
    exact isPre_head_false _ _ _ _ (by decide)
  have hs1slash : '/' ∉ s1.data :=
    all_not_mem podsCharset s1.data '/' h1c (by decide)
  have hpods : podsMatch ("ar://" ++ s1 ++ "/" ++ s2 ++ ext) =
      some (s1.data, s2.data, ext.data) := by
    unfold podsMatch
    rw [har]
    simp only [if_true]
    rw [hUdata]
    rw [show ("ar://".data ++
        (s1.data ++ '/' :: (s2.data ++ ext.data))).drop 5 =
      s1.data ++ '/' :: (s2.data ++ ext.data) by
      rw [show (5 : Nat) = ("ar://".data).length from rfl, List.drop_left]]
    rw [splitOnceL_char '/' s1.data _ hs1slash]
    dsimp only
    rw [if_pos ⟨h1, h1c⟩]
    rcases hext with hext0 | ⟨b, hb, hbne, hball⟩
    · rw [hext0]
      rw [show ("" : String).data = [] from rfl, List.append_nil]
      rw [takeWhile_all_eq podsCharset s2.data h2c]
      rw [if_neg h2]
      rw [show List.drop s2.data.length s2.data = [] by simp]
    · rw [hb]
      rw [takeWhile_append_all podsCharset s2.data _ h2c]
      rw [List.takeWhile_cons]
      rw [show podsCharset '.' = false from rfl]
      simp only [Bool.false_eq_true, if_false, List.append_nil]
      rw [if_neg h2]
      rw [List.drop_left]
      simp [hbne, hball]
  unfold processArweaveUrl
  rw [if_neg hne]
  rw [harw]
  simp only [Bool.false_eq_true, if_false]
  rw [har]
  rw [if_neg (by simp)]
  rw [if_neg (by rintro ⟨hmt2, -⟩; exact hmt hmt2)]
  rw [hpods]
  dsimp only
  rw [if_pos hmt]

/-- Witness for `processArweaveUrl_pods_drop` at the concrete PODs URL
`ar://t1/t2.mp3`. -/
theorem processArweaveUrl_pods_drop_witness :
    (MediaType.image ≠ MediaType.audio ∧
     ("t1" : String).data ≠ [] ∧ ("t1" : String).data.all podsCharset = true ∧
     ("t2" : String).data ≠ [] ∧ ("t2" : String).data.all podsCharset = true ∧
     (∃ b, (".mp3" : String).data = '.' :: b ∧ b ≠ [] ∧
        b.all isAlnumC = true)) ∧
    processArweaveUrl ("ar://" ++ "t1" ++ "/" ++ "t2" ++ ".mp3") .image =
      "https://arweave.net/" ++ "t2" ++ ".mp3" :=
  ⟨⟨by decide, by decide, by decide, by decide, by decide,
    ⟨"mp3".data, by decide, by decide, by decide⟩⟩,
   processArweaveUrl_pods_drop "t1" "t2" ".mp3" .image (by decide)
     (by decide) (by decide) (by decide) (by decide)
     (Or.inr ⟨"mp3".data, by decide, by decide, by decide⟩)⟩

theorem take20_left (pre x : List Char) (hl : pre.length = 20) :
    List.take 20 (pre ++ x) = pre := by
  rw [← hl, List.take_left]

/-- C7. For an audio raw URL of the two-segment Arweave form
`ar://<txid>/<path>`, the fallback candidate list built by
`handlePlayAudio` is exactly, in order,
`https://arweave.net/<txid>/<path>`, `https://arweave.dev/<txid>/<path>`,
`https://arweave.net/<txid>`; its first element equals the resolved
primary URL, and the list has no repeated element
(src/unnamed/part_001 lines 284–309). -/
theorem audioUrls_pods (m : Bool) (tx p : String)
    (htx : tx.data ≠ []) (hslash : '/' ∉ tx.data) :
    audioUrls m ("ar://" ++ tx ++ "/" ++ p) =
      ["https://arweave.net/" ++ tx ++ "/" ++ p,
       "https://arweave.dev/" ++ tx ++ "/" ++ p,
       "https://arweave.net/" ++ tx] ∧
    (audioUrls m ("ar://" ++ tx ++ "/" ++ p)).head? =
      some (processMediaUrl m ("ar://" ++ tx ++ "/" ++ p)
        "/default-nft.png" .audio) ∧
    (audioUrls m ("ar://" ++ tx ++ "/" ++ p)).Nodup := by
  have hUdata : ("ar://" ++ tx ++ "/" ++ p).data =
      "ar://".data ++ (tx.data ++ '/' :: p.data) := by
    simp [String.data_append, List.append_assoc]
  have har : isPre ("ar://".data) ("ar://" ++ tx ++ "/" ++ p).data =
      true := by
    rw [hUdata, isPre_iff]
    exact List.prefix_append _ _
  have hsl : hasSub ("ar://" ++ tx ++ "/" ++ p).data ['/'] = true := by
    rw [hasSub_iff]
    exact ⟨['a', 'r', ':'], '/' :: (tx.data ++ '/' :: p.data),
      by rw [hUdata]; rfl⟩
  have hrepl : replaceFirstL ("ar://".data) []
      ("ar://" ++ tx ++ "/" ++ p).data = tx.data ++ '/' :: p.data := by
    rw [replaceFirstL_of_isPre _ _ _ har (by rw [hUdata]; simp)]
    rw [List.nil_append, hUdata, List.drop_left]
  have hsplit : splitCharsOn '/' (tx.data ++ '/' :: p.data) =
      tx.data :: splitCharsOn '/' p.data :=
    splitCharsOn_append '/' tx.data p.data hslash
  have hjoin : joinChars '/' (splitCharsOn '/' p.data) = p.data :=
    joinChars_splitCharsOn '/' p.data
  have hlist : audioUrls m ("ar://" ++ tx ++ "/" ++ p) =
      ["https://arweave.net/" ++ tx ++ "/" ++ p,
       "https://arweave.dev/" ++ tx ++ "/" ++ p,
       "https://arweave.net/" ++ tx] := by
    unfold audioUrls
    rw [if_pos ⟨har, hsl⟩]
    rw [hrepl, hsplit]
    dsimp only
    rw [hjoin]
  have hres : processMediaUrl m ("ar://" ++ tx ++ "/" ++ p)
      "/default-nft.png" .audio =
      "https://arweave.net/" ++ tx ++ "/" ++ p := by
    rw [processMediaUrl_ar_audio m _ _ har]
    rw [processArweaveUrl_audio_eval _ (tx.data ++ '/' :: p.data) hUdata]
    rw [hsplit]
    dsimp only
    rw [hjoin]
  have hAB : ("https://arweave.net/" ++ tx ++ "/" ++ p) ≠
      ("https://arweave.dev/" ++ tx ++ "/" ++ p) := by
    intro h
    have hd := congrArg String.data h
    simp only [String.data_append, List.append_assoc] at hd
    have ht := congrArg (List.take 20) hd
    rw [take20_left _ _ (by decide), take20_left _ _ (by decide)] at ht
    exact absurd ht (by decide)
  have hAC : ("https://arweave.net/" ++ tx ++ "/" ++ p) ≠
      ("https://arweave.net/" ++ tx) := by
    intro h
    have hd := congrArg String.data h
    simp only [String.data_append, List.append_assoc] at hd
    have hlen := congrArg List.length hd
    simp only [List.length_append, List.length_cons] at hlen
    omega
  have hBC : ("https://arweave.dev/" ++ tx ++ "/" ++ p) ≠
      ("https://arweave.net/" ++ tx) := by
    intro h
    have hd := congrArg String.data h
    simp only [String.data_append, List.append_assoc] at hd
    have ht := congrArg (List.take 20) hd
    rw [take20_left _ _ (by decide), take20_left _ _ (by decide)] at ht
    exact absurd ht (by decide)
  refine ⟨hlist, ?_, ?_⟩
  · rw [hlist, hres]
    rfl
  · rw [hlist]
    simp [List.nodup_cons, hAB, hAC, hBC]

/-- Witness for `audioUrls_pods` at the concrete PODs audio URL
`ar://abc/su/b.mp3`. -/
theorem audioUrls_pods_witness :
    (("abc" : String).data ≠ [] ∧ '/' ∉ ("abc" : String).data) ∧
    audioUrls false ("ar://" ++ "abc" ++ "/" ++ "su/b.mp3") =
      ["https://arweave.net/" ++ "abc" ++ "/" ++ "su/b.mp3",
       "https://arweave.dev/" ++ "abc" ++ "/" ++ "su/b.mp3",
       "https://arweave.net/" ++ "abc"] ∧
    (audioUrls false ("ar://" ++ "abc" ++ "/" ++ "su/b.mp3")).head? =
      some (processMediaUrl false ("ar://" ++ "abc" ++ "/" ++ "su/b.mp3")
        "/default-nft.png" .audio) ∧
    (audioUrls false ("ar://" ++ "abc" ++ "/" ++ "su/b.mp3")).Nodup :=
  ⟨⟨by decide, by decide⟩,
   audioUrls_pods false "abc" "su/b.mp3" (by decide) (by decide)⟩

end PodPlayr
